import Mathlib

set_option maxRecDepth 100000

/-!
Verification development for the @rubriclab/actions package (src/index.ts,
src/lib/utils.ts, fixtures from src/lib/test.ts).

The embedding models:
- zod type schemas (the structural fragment the package inspects) as `ZodType`;
- wire values (JSON-like runtime values) as `Value`;
- the type-identity engine `generateSignature` / `stableName` (src/index.ts:57-94);
- the output grouping index `actionsByOutputName` (src/index.ts:171-176);
- the schema assembler `paramSchemaForType` / action schemas / top-level schema
  (src/index.ts:178-207), with `z.lazy` handles modelled as named references
  (`ZodType.zlazy`) resolved through an arena, which is exactly the
  deferred-handle construction the code builds with closures;
- zod's `parse` (the external validator collaborator) as `zodParseF`, for the
  schema fragment the package constructs;
- the chain executor `execute` / `executeAction` (src/index.ts:209-239),
  instrumented with a trace of executor invocations so that execution-order
  and validation properties can be stated;
- the interchange exporter (src/index.ts:241-288) and the
  `createJsonSchema` / `getStableTypeName` variant (src/lib/utils.ts).

Recursive functions that recurse through nested lists or through lazy schema
references are written with an explicit `Nat` fuel argument so that they are
structurally recursive and kernel-computable; `bigFuel` (2^64) exceeds the
recursion depth of every actual input, and all universal theorems are proved
for every fuel, so the fuel is purely a termination device.
-/

/-! String ordering (model of the JavaScript default sort comparator)

JavaScript's default `Array.prototype.sort` compares strings by UTF-16 code
units; we compare by code points, which agrees on the basic multilingual
plane. Only the canonicalising effect of sorting matters to the claims. -/

def charsLe : List Char → List Char → Bool
  | [], _ => true
  | _ :: _, [] => false
  | a :: as, b :: bs =>
    if a.toNat < b.toNat then true
    else if b.toNat < a.toNat then false
    else charsLe as bs

def strLe (a b : String) : Bool := charsLe a.data b.data

def strLeP (a b : String) : Prop := strLe a b = true

instance : DecidableRel strLeP := fun a b => inferInstanceAs (Decidable (strLe a b = true))

def sortStr (l : List String) : List String := List.insertionSort strLeP l

def joinSep (sep : String) : List String → String
  | [] => ""
  | [x] => x
  | x :: rest => x ++ sep ++ joinSep sep rest

/-! JSON-like runtime values -/

inductive Value where
  | vstr (s : String)
  | vnum (n : Int)
  | vbool (b : Bool)
  | vobj (fields : List (String × Value))
  | varr (items : List Value)

def lookupKey {α : Type} : List (String × α) → String → Option α
  | [], _ => none
  | (k, v) :: rest, key => if k = key then some v else lookupKey rest key

def hasKey {α : Type} (fields : List (String × α)) (key : String) : Bool :=
  (lookupKey fields key).isSome

/-- Reading a field of a JavaScript object; `none` on non-objects mirrors
reading a property of a primitive (no own property). -/
def Value.getField : Value → String → Option Value
  | .vobj fields, k => lookupKey fields k
  | _, _ => none

/-- Fueled structural equality on values (used to state byte-identity of
exported documents and to model `z.literal`'s strict equality check). -/
def fieldsBeq (eq : Value → Value → Bool) : List (String × Value) → List (String × Value) → Bool
  | [], [] => true
  | (k1, v1) :: r1, (k2, v2) :: r2 => decide (k1 = k2) && eq v1 v2 && fieldsBeq eq r1 r2
  | _, _ => false

def listBeq (eq : Value → Value → Bool) : List Value → List Value → Bool
  | [], [] => true
  | v1 :: r1, v2 :: r2 => eq v1 v2 && listBeq eq r1 r2
  | _, _ => false

def vbeqF : Nat → Value → Value → Bool
  | 0, _, _ => false
  | fuel + 1, a, b =>
    match a, b with
    | .vstr s, .vstr t => decide (s = t)
    | .vnum n, .vnum m => decide (n = m)
    | .vbool x, .vbool y => x == y
    | .vobj f1, .vobj f2 => fieldsBeq (vbeqF fuel) f1 f2
    | .varr l1, .varr l2 => listBeq (vbeqF fuel) l1 l2
    | _, _ => false

def bigFuel : Nat := 2 ^ 64

/-- JSON.stringify model (compact form, no replacer). Braces are written with
escape codes; the function is only ever compared with itself. -/
def jsEscapeChar (c : Char) : String :=
  if c = '"' then "\\\"" else if c = '\\' then "\\\\" else String.singleton c

def jsQuote (s : String) : String :=
  "\"" ++ String.join (s.data.map jsEscapeChar) ++ "\""

def jsonStringifyF : Nat → Value → String
  | 0, _ => ""
  | fuel + 1, v =>
    match v with
    | .vstr s => jsQuote s
    | .vnum n => toString n
    | .vbool b => if b then "true" else "false"
    | .vobj fields =>
      "\x7b" ++ joinSep "," (fields.map (fun kv => jsQuote kv.1 ++ ":" ++ jsonStringifyF fuel kv.2)) ++ "\x7d"
    | .varr items => "[" ++ joinSep "," (items.map (jsonStringifyF fuel)) ++ "]"

/-! Zod schemas (the structural fragment the package inspects)

`zlazy name` models a `z.lazy` handle resolved through a named arena: the code
resolves the mutual recursion between action schemas through closures over the
`actionSchemas` record, which is exactly a by-name reference. `zother` covers
every zod type the package's `generateSignature` does not handle. -/

inductive ZodType where
  | zstring
  | znumber
  | zboolean
  | zvoid
  | zliteral (value : Value)
  | zobject (strict : Bool) (shape : List (String × ZodType))
  | zunion (options : List ZodType)
  | zenum (values : List String)
  | zarray (elem : ZodType)
  | znativeEnum (values : List String)
  | zoptional (inner : ZodType)
  | znullable (inner : ZodType)
  | zdefault (inner : ZodType)
  | zdate
  | zlazy (name : String)
  | zother (typeName : String)

/-- Model of generateSignature (src/index.ts:57-89): a canonical structural
signature; object entries and union member signatures are sorted so that
declaration order never affects the result; every unhandled type kind falls
back to "unknown". -/
def sigF : Nat → ZodType → String
  | 0, _ => ""
  | fuel + 1, t =>
    match t with
    | .zstring => "string"
    | .znumber => "number"
    | .zboolean => "boolean"
    | .zliteral v => "literal_" ++ jsonStringifyF fuel v
    | .zvoid => "void"
    | .zobject _ shape =>
      "object_" ++ joinSep "_" (sortStr (shape.map (fun kv => kv.1 ++ "-" ++ sigF fuel kv.2)))
    | .zunion opts => "union_" ++ joinSep "_or_" (sortStr (opts.map (sigF fuel)))
    | .zenum vs => "enum_" ++ joinSep "_" (sortStr vs)
    | .zarray t => "array_" ++ sigF fuel t
    | .znativeEnum vs => "native_enum_" ++ joinSep "_" (sortStr vs)
    | _ => "unknown"

def generateSignature (t : ZodType) : String := sigF bigFuel t

/-- Model of shortHash (src/index.ts:91): the code takes the first 8 hex
digits of a sha1 digest from node:crypto (an external collaborator). We use
an executable stand-in; the claims depend only on the hash being a fixed pure
function of the signature string. -/
def shortHash (s : String) : String :=
  Nat.repr (s.data.foldl (fun h c => (h * 131 + c.toNat) % 4294967291) 7)

/-- Model of stableName (src/index.ts:92). -/
def stableName (t : ZodType) : String := "Schema_" ++ shortHash (generateSignature t)

/-- Model of makeNonEmptyUnion (src/index.ts:96-101). The source throws on an
empty list at registry-construction time; the claims never involve empty
registries, and the empty case here returns an empty (never-matching) union. -/
def makeNonEmptyUnion : List ZodType → ZodType
  | [s] => s
  | l => .zunion l

/-! Actions and the registry

Model of the action definitions consumed by createActionsExecutor
(src/index.ts:5-10, 170): an input object schema (its shape, declared
parameter order preserved), an output schema and an executor. A registry is a
JavaScript `Record`, i.e. an insertion-ordered association list with unique
keys (uniqueness is a hypothesis where a theorem needs it). Executors model
the (possibly asynchronous) user functions; asynchrony is irrelevant because
the executor awaits each call before proceeding. -/

structure ActionDef where
  input : List (String × ZodType)
  output : ZodType
  exec : Value → Except String Value

abbrev Registry := List (String × ActionDef)

/-- Push a value onto a record-of-lists entry, creating the entry on first
use; models the grouping insertion of src/index.ts:171-176. -/
def recPush : List (String × List String) → String → String → List (String × List String)
  | [], key, val => [(key, [val])]
  | (k, vs) :: rest, key, val =>
    if k = key then (k, vs ++ [val]) :: rest
    else (k, vs) :: recPush rest key val

/-- Model of the output grouping index actionsByOutputName
(src/index.ts:171-176): actions grouped by the stable name of their output
schema, in registration order. -/
def actionsByOutputName (reg : Registry) : List (String × List String) :=
  reg.foldl (fun m kv => recPush m (stableName kv.2.output) kv.1) []

def lookupGroup (m : List (String × List String)) (key : String) : List String :=
  (lookupKey m key).getD []

/-- Model of paramSchemaForType (src/index.ts:179-189): a parameter validator
accepts the declared parameter schema or the invocation schema of any action
whose output identity matches the parameter's identity. The `stableDescribe`
wrappers in the source only attach description metadata and do not affect
parsing, so they are not modelled. -/
def paramSchemaForType (groups : List (String × List String)) (p : ZodType) : ZodType :=
  let acts := (lookupGroup groups (stableName p)).map ZodType.zlazy
  if acts.isEmpty then p else .zunion (p :: acts)

/-- Body of the per-action invocation schema built by the schema assembler
(src/index.ts:191-199): a non-strict object with the action-name literal and
a strict params object. -/
def actionBodySchema (groups : List (String × List String)) (name : String) (a : ActionDef) : ZodType :=
  .zobject false
    [("action", .zliteral (.vstr name)),
     ("params", .zobject true (a.input.map (fun kv => (kv.1, paramSchemaForType groups kv.2))))]

/-- The arena of named action schemas (src/index.ts:201-203): the code stores
a `z.lazy` handle per action; dereferencing a handle yields the body built by
the builder. -/
def schemaArena (reg : Registry) : List (String × ZodType) :=
  let groups := actionsByOutputName reg
  reg.map (fun kv => (kv.1, actionBodySchema groups kv.1 kv.2))

/-- The top-level ActionUnion (src/index.ts:205). -/
def actionUnionSchema (reg : Registry) : ZodType :=
  makeNonEmptyUnion (reg.map (fun kv => ZodType.zlazy kv.1))

/-- The top-level schema (src/index.ts:206): a strict object with the single
field `execution`. -/
def topSchema (reg : Registry) : ZodType :=
  .zobject true [("execution", actionUnionSchema reg)]

/-! The external validator collaborator (zod's parse)

`zodParseF` models `schema.parse` for the schema fragment the package
constructs: success returns the parsed (stripped) value, failure is a thrown
ZodError. `PErr.outOfFuel` is the fuel-exhaustion artifact of the embedding;
it never occurs at `bigFuel` for the inputs considered and is propagated
eagerly so that results that do not mention it are fuel-stable.

Notes on fidelity: non-strict objects strip unknown keys and return fields in
shape order (as zod does); strict objects reject unknown keys; unions try
their options left to right and return the first success; `z.literal` uses
strict equality. `zoptional`/`znullable`/`zdefault` parse through to the
inner schema; the `undefined`/`null` special cases are not representable in
`Value` and are never exercised by the package's own schemas. `zvoid` and
`zdate` accept no representable value. -/

inductive PErr where
  | invalid
  | outOfFuel
deriving DecidableEq

def parseFieldsF (parse : ZodType → Value → Except PErr Value) :
    List (String × ZodType) → List (String × Value) → Except PErr (List (String × Value))
  | [], _ => .ok []
  | (k, t) :: rest, m =>
    match lookupKey m k with
    | none => .error .invalid
    | some v =>
      match parse t v with
      | .error e => .error e
      | .ok pv =>
        match parseFieldsF parse rest m with
        | .error e => .error e
        | .ok prest => .ok ((k, pv) :: prest)

def parseFirstF (parse : ZodType → Value → Except PErr Value) (v : Value) :
    List ZodType → Except PErr Value
  | [] => .error .invalid
  | t :: rest =>
    match parse t v with
    | .ok r => .ok r
    | .error _ => parseFirstF parse v rest

def parseItemsF (parse : Value → Except PErr Value) : List Value → Except PErr (List Value)
  | [] => .ok []
  | v :: rest =>
    match parse v with
    | .error e => .error e
    | .ok pv =>
      match parseItemsF parse rest with
      | .error e => .error e
      | .ok prest => .ok (pv :: prest)

def zodParseF (arena : List (String × ZodType)) : Nat → ZodType → Value → Except PErr Value
  | 0, _, _ => .error .outOfFuel
  | fuel + 1, s, v =>
    match s, v with
    | .zstring, .vstr a => .ok (.vstr a)
    | .zstring, _ => .error .invalid
    | .znumber, .vnum n => .ok (.vnum n)
    | .znumber, _ => .error .invalid
    | .zboolean, .vbool b => .ok (.vbool b)
    | .zboolean, _ => .error .invalid
    | .zvoid, _ => .error .invalid
    | .zliteral w, x => if vbeqF fuel w x then .ok x else .error .invalid
    | .zobject strict shape, .vobj m =>
      if strict && m.any (fun kv => !(hasKey shape kv.1)) then .error .invalid
      else
        match parseFieldsF (zodParseF arena fuel) shape m with
        | .error e => .error e
        | .ok out => .ok (.vobj out)
    | .zobject _ _, _ => .error .invalid
    | .zunion opts, x => parseFirstF (zodParseF arena fuel) x opts
    | .zenum vs, .vstr a => if vs.any (fun x => decide (x = a)) then .ok (.vstr a) else .error .invalid
    | .zenum _, _ => .error .invalid
    | .zarray t, .varr items =>
      match parseItemsF (zodParseF arena fuel t) items with
      | .error e => .error e
      | .ok out => .ok (.varr out)
    | .zarray _, _ => .error .invalid
    | .znativeEnum vs, .vstr a => if vs.any (fun x => decide (x = a)) then .ok (.vstr a) else .error .invalid
    | .znativeEnum _, _ => .error .invalid
    | .zoptional inner, x => zodParseF arena fuel inner x
    | .znullable inner, x => zodParseF arena fuel inner x
    | .zdefault inner, x => zodParseF arena fuel inner x
    | .zdate, _ => .error .invalid
    | .zlazy n, x =>
      match lookupKey arena n with
      | some body => zodParseF arena fuel body x
      | none => .error .invalid
    | .zother _, _ => .error .invalid

def zodParse (arena : List (String × ZodType)) (s : ZodType) (v : Value) : Except PErr Value :=
  zodParseF arena bigFuel s v

/-! The chain executor

`executeActionF` models executeAction (src/index.ts:226-239), instrumented
with a trace: the list of (action name, validated input) pairs, one entry per
executor invocation, appended at the moment the executor is invoked. The
returned result component is exactly the source semantics; the trace exists
so that execution-order and validation properties can be stated.

The source destructures `invocation.action`/`invocation.params`; on a value
without those fields (or with a non-string action value, which no registry
key can equal for the string-keyed registries considered) the registry lookup
fails, which the model renders as `unknownAction "undefined"`. A `params`
value that is not an object iterates no keys (JavaScript `for..in`), modelled
as the empty field list. -/

inductive ExecErr where
  | chainShape
  | unknownAction (name : String)
  | inputValidation (action : String)
  | execFailure (action : String) (msg : String)
  | outOfFuel
deriving DecidableEq

def inputSchema (a : ActionDef) : ZodType := .zobject false a.input

/-- Sequential, declared-order resolution of the params record
(src/index.ts:232-237): a value that structurally looks like an invocation
(non-null object carrying an `action` field) is resolved by the `run`
callback first; anything else passes through as a literal. -/
def isInvocationLike : Value → Bool
  | .vobj fields => hasKey fields "action"
  | _ => false

def resolveParams (run : Value → List (String × Value) × Except ExecErr Value) :
    List (String × Value) → List (String × Value) × Except ExecErr (List (String × Value))
  | [] => ([], .ok [])
  | (k, p) :: rest =>
    if isInvocationLike p then
      match run p with
      | (log, .error e) => (log, .error e)
      | (log, .ok out) =>
        match resolveParams run rest with
        | (log2, .error e) => (log ++ log2, .error e)
        | (log2, .ok outs) => (log ++ log2, .ok ((k, out) :: outs))
    else
      match resolveParams run rest with
      | (log2, .error e) => (log2, .error e)
      | (log2, .ok outs) => (log2, .ok ((k, p) :: outs))

def executeActionF (reg : Registry) : Nat → Value → List (String × Value) × Except ExecErr Value
  | 0, _ => ([], .error .outOfFuel)
  | fuel + 1, inv =>
    match inv.getField "action" with
    | some (.vstr actionName) =>
      match lookupKey reg actionName with
      | none => ([], .error (.unknownAction actionName))
      | some action =>
        let params := match inv.getField "params" with
          | some (.vobj m) => m
          | _ => []
        match resolveParams (executeActionF reg fuel) params with
        | (log, .error e) => (log, .error e)
        | (log, .ok input) =>
          match zodParse [] (inputSchema action) (.vobj input) with
          | .error _ => (log, .error (.inputValidation actionName))
          | .ok validated =>
            match action.exec validated with
            | .error msg => (log ++ [(actionName, validated)], .error (.execFailure actionName msg))
            | .ok out => (log ++ [(actionName, validated)], .ok out)
    | _ => ([], .error (.unknownAction "undefined"))

def executeAction (reg : Registry) (inv : Value) : Except ExecErr Value :=
  (executeActionF reg bigFuel inv).2

/-- Model of execute (src/index.ts:209-214): the whole invocation is wrapped
as an execution document and validated against the assembled recursive chain
schema before any resolution; a parse failure is the thrown ZodError,
rendered as `ExecErr.chainShape`. On success the parsed execution value is
handed to the resolver. -/
def executeF (reg : Registry) (fuel : Nat) (invocation : Value) :
    List (String × Value) × Except ExecErr Value :=
  match zodParseF (schemaArena reg) fuel (topSchema reg) (.vobj [("execution", invocation)]) with
  | .error _ => ([], .error .chainShape)
  | .ok parsed =>
    match parsed.getField "execution" with
    | some ex => executeActionF reg fuel ex
    | none => ([], .error .chainShape)

def execute (reg : Registry) (invocation : Value) : Except ExecErr Value :=
  (executeF reg bigFuel invocation).2

/-! The interchange exporter (src/index.ts:241-288)

JSON documents are modelled as `Value` with insertion-ordered object fields,
so equality of documents models byte-identity of their serialized form. -/

/-- JavaScript `typeof` on a JSON value, as used by zodToJsonSchema for
literals (src/index.ts:134). -/
def typeofStr : Value → String
  | .vstr _ => "string"
  | .vnum _ => "number"
  | .vbool _ => "boolean"
  | .vobj _ => "object"
  | .varr _ => "object"

def mapFieldsE (f : ZodType → Except String Value) :
    List (String × ZodType) → Except String (List (String × Value))
  | [] => .ok []
  | (k, t) :: rest =>
    match f t with
    | .error e => .error e
    | .ok v =>
      match mapFieldsE f rest with
      | .error e => .error e
      | .ok vs => .ok ((k, v) :: vs)

def mapListE (f : ZodType → Except String Value) : List ZodType → Except String (List Value)
  | [] => .ok []
  | t :: rest =>
    match f t with
    | .error e => .error e
    | .ok v =>
      match mapListE f rest with
      | .error e => .error e
      | .ok vs => .ok (v :: vs)

/-- Model of the package's own zodToJsonSchema (src/index.ts:123-168). The
default case throws (the source throws a string), including for `z.lazy`,
which that function never receives in practice. -/
def zodToJsonSchemaF : Nat → ZodType → Except String Value
  | 0, _ => .error "fuel"
  | fuel + 1, t =>
    match t with
    | .zstring => .ok (.vobj [("type", .vstr "string")])
    | .znumber => .ok (.vobj [("type", .vstr "number")])
    | .zboolean => .ok (.vobj [("type", .vstr "boolean")])
    | .zliteral v => .ok (.vobj [("type", .vstr (typeofStr v)), ("const", v)])
    | .zvoid => .ok (.vobj [("type", .vstr "void")])
    | .zobject _ shape =>
      match mapFieldsE (zodToJsonSchemaF fuel) shape with
      | .error e => .error e
      | .ok props => .ok (.vobj
          [("type", .vstr "object"),
           ("properties", .vobj props),
           ("required", .varr (shape.map (fun kv => .vstr kv.1))),
           ("additionalProperties", .vbool false)])
    | .zunion opts =>
      match mapListE (zodToJsonSchemaF fuel) opts with
      | .error e => .error e
      | .ok vs => .ok (.vobj [("anyOf", .varr vs)])
    | .zenum vs => .ok (.vobj [("type", .vstr "string"), ("enum", .varr (vs.map .vstr))])
    | .zarray t =>
      match zodToJsonSchemaF fuel t with
      | .error e => .error e
      | .ok j => .ok (.vobj [("type", .vstr "array"), ("items", j)])
    | .znativeEnum vs => .ok (.vobj [("type", .vstr "string"), ("enum", .varr (vs.map .vstr))])
    | .zoptional inner => zodToJsonSchemaF fuel inner
    | .zdate => .ok (.vobj [("type", .vstr "string"), ("format", .vstr "date-time")])
    | .zdefault inner => zodToJsonSchemaF fuel inner
    | .znullable inner => zodToJsonSchemaF fuel inner
    | .zlazy _ => .error "Should not see this. This is an actions package error. Unknown type: ZodLazy"
    | .zother tn => .error ("Should not see this. This is an actions package error. Unknown type: " ++ tn)

def zodToJsonSchema (t : ZodType) : Except String Value := zodToJsonSchemaF bigFuel t

/-- JavaScript record assignment `m[key] = v`: overwrite in place if the key
exists, otherwise append. -/
def recSet : List (String × Value) → String → Value → List (String × Value)
  | [], key, v => [(key, v)]
  | (k, w) :: rest, key, v =>
    if k = key then (k, v) :: rest
    else (k, w) :: recSet rest key v

/-- Output-type definitions (src/index.ts:241-248): one entry per distinct
output stable name, first-seen order, keyed by the stable name. -/
def ensureOutputDefinitions (reg : Registry) : Except String (List (String × Value)) :=
  reg.foldlM (fun defs kv =>
    let name := stableName kv.2.output
    if (lookupKey defs name).isSome then pure defs
    else do
      let j ← zodToJsonSchema kv.2.output
      pure (defs ++ [(name, j)])) []

/-- Model of paramToJsonSchema (src/index.ts:250-257). -/
def paramToJsonSchema (groups : List (String × List String)) (p : ZodType) : Except String Value := do
  let base ← zodToJsonSchema p
  let refs := (lookupGroup groups (stableName p)).map
    (fun aName => Value.vobj [("$ref", .vstr ("#/definitions/" ++ aName ++ "Action"))])
  if refs.isEmpty then pure base
  else pure (.vobj [("anyOf", .varr (base :: refs))])

/-- Per-action definitions (src/index.ts:259-276), keyed `<name>Action`. -/
def addActionDefinitions (groups : List (String × List String)) (reg : Registry)
    (defs0 : List (String × Value)) : Except String (List (String × Value)) :=
  reg.foldlM (fun defs kv => do
    let props ← mapFieldsE (paramToJsonSchema groups) kv.2.input
    let req := kv.2.input.map (fun p => Value.vstr p.1)
    pure (recSet defs (kv.1 ++ "Action") (.vobj
      [("type", .vstr "object"),
       ("properties", .vobj
         [("action", .vobj [("type", .vstr "string"), ("const", .vstr kv.1)]),
          ("params", .vobj
            [("type", .vstr "object"),
             ("properties", .vobj props),
             ("required", .varr req),
             ("additionalProperties", .vbool false)])]),
       ("required", .varr [.vstr "action", .vstr "params"]),
       ("additionalProperties", .vbool false)]))) defs0

/-- The top-level action union document (src/index.ts:278-280): member refs in
registration order. -/
def actionUnionDoc (reg : Registry) : Value :=
  .vobj [("anyOf", .varr (reg.map
    (fun kv => Value.vobj [("$ref", .vstr ("#/definitions/" ++ kv.1 ++ "Action"))])))]

/-- The exported interchange document (src/index.ts:281-288). -/
def jsonSchemaDoc (reg : Registry) : Except String Value := do
  let groups := actionsByOutputName reg
  let defs1 ← ensureOutputDefinitions reg
  let defs ← addActionDefinitions groups reg defs1
  pure (.vobj
    [("$schema", .vstr "http://json-schema.org/draft-07/schema#"),
     ("type", .vstr "object"),
     ("properties", .vobj [("execution", actionUnionDoc reg)]),
     ("required", .varr [.vstr "execution"]),
     ("additionalProperties", .vbool false),
     ("definitions", .vobj defs)])

/-! The src/lib/utils.ts variant: getStableTypeName and createJsonSchema -/

def unionTag : String := "ActionUnionThatOutputs_"

namespace Utils

/-- Model of the external zod-to-json-schema library as called with
`$refStrategy: 'none'` (src/lib/utils.ts:3, 37, 76): a total best-effort JSON
rendering of the schema; unhandled kinds render as an empty schema, as the
library does for unknown/any types. Only its use as a hash input matters to
the claims. -/
def extZodToJsonSchemaF : Nat → ZodType → Value
  | 0, _ => .vobj []
  | fuel + 1, t =>
    match t with
    | .zstring => .vobj [("type", .vstr "string")]
    | .znumber => .vobj [("type", .vstr "number")]
    | .zboolean => .vobj [("type", .vstr "boolean")]
    | .zliteral v => .vobj [("type", .vstr (typeofStr v)), ("const", v)]
    | .zvoid => .vobj [("type", .vstr "null")]
    | .zobject _ shape => .vobj
        [("type", .vstr "object"),
         ("properties", .vobj (shape.map (fun kv => (kv.1, extZodToJsonSchemaF fuel kv.2)))),
         ("required", .varr (shape.map (fun kv => .vstr kv.1))),
         ("additionalProperties", .vbool false)]
    | .zunion opts => .vobj [("anyOf", .varr (opts.map (extZodToJsonSchemaF fuel)))]
    | .zenum vs => .vobj [("type", .vstr "string"), ("enum", .varr (vs.map .vstr))]
    | .zarray t => .vobj [("type", .vstr "array"), ("items", extZodToJsonSchemaF fuel t)]
    | .znativeEnum vs => .vobj [("type", .vstr "string"), ("enum", .varr (vs.map .vstr))]
    | .zoptional inner => extZodToJsonSchemaF fuel inner
    | .znullable inner => extZodToJsonSchemaF fuel inner
    | .zdefault inner => extZodToJsonSchemaF fuel inner
    | .zdate => .vobj [("type", .vstr "string"), ("format", .vstr "date-time")]
    | .zlazy _ => .vobj []
    | .zother _ => .vobj []

def extZodToJsonSchema (t : ZodType) : Value := extZodToJsonSchemaF bigFuel t

/-- JSON.stringify with an array replacer (src/lib/utils.ts:8): per the
ECMAScript SerializeJSONObject algorithm, when the replacer is an array it
acts as a key whitelist applied at every nesting level and fixes the
serialization order of object keys; array elements are not filtered. -/
def jsonStringifyRF (keys : List String) : Nat → Value → String
  | 0, _ => ""
  | fuel + 1, v =>
    match v with
    | .vstr s => jsQuote s
    | .vnum n => toString n
    | .vbool b => if b then "true" else "false"
    | .vobj fields =>
      "\x7b" ++ joinSep ","
        ((keys.filterMap (fun k => (lookupKey fields k).map
          (fun w => (k, w)))).map
            (fun kw => jsQuote kw.1 ++ ":" ++ jsonStringifyRF keys fuel kw.2)) ++ "\x7d"
    | .varr items => "[" ++ joinSep "," (items.map (jsonStringifyRF keys fuel)) ++ "]"

def topKeys : Value → List String
  | .vobj fields => fields.map (fun kv => kv.1)
  | _ => []

/-- Model of hashSchema (src/lib/utils.ts:7-11): JSON.stringify with the
sorted top-level keys as an array replacer, then the first 8 hex digits of a
sha256 digest. The digest is the node:crypto collaborator, modelled by an
executable stand-in (a different seed than the sha1 stand-in). -/
def hashSchema (d : Value) : String :=
  Nat.repr ((jsonStringifyRF (sortStr (topKeys d)) bigFuel d).data.foldl
    (fun h c => (h * 131 + c.toNat) % 4294967291) 11)

/-- Model of getStableTypeName (src/lib/utils.ts:15-45): instanceof checks
for string/number/boolean/void, a hash of the rendered JSON schema for
objects, and the "unknown" fallback for everything else (including literals,
unions, enums and arrays, which this variant does not handle). The WeakMap
cache is pure memoization and has no semantic content. -/
def getStableTypeName : ZodType → String
  | .zstring => "string"
  | .znumber => "number"
  | .zboolean => "boolean"
  | .zvoid => "void"
  | .zobject s sh => "object_" ++ hashSchema (extZodToJsonSchema (.zobject s sh))
  | _ => "unknown"

/-- Model of the grouping loop of createJsonSchema (src/lib/utils.ts:51-59). -/
def actionsByOutputType (reg : Registry) : List (String × List String) :=
  reg.foldl (fun m kv => recPush m (getStableTypeName kv.2.output) kv.1) []

/-- Model of the per-parameter property (src/lib/utils.ts:75-95): always an
anyOf wrapper, with a reference to the matching output union when one exists
(the object and non-object branches of the source are identical). -/
def paramProperty (groupsU : List (String × List String)) (p : ZodType) : Value :=
  let base := extZodToJsonSchema p
  let tn := getStableTypeName p
  match lookupKey groupsU tn with
  | some (_ :: _) =>
    .vobj [("anyOf", .varr
      [base, .vobj [("$ref", .vstr ("#/definitions/ActionUnionThatOutputs_" ++ tn))]])]
  | _ => .vobj [("anyOf", .varr [base])]

def actionDefinition (groupsU : List (String × List String)) (name : String) (a : ActionDef) : Value :=
  .vobj
    [("type", .vstr "object"),
     ("properties", .vobj
       [("action", .vobj [("type", .vstr "string"), ("const", .vstr name)]),
        ("params", .vobj
          [("type", .vstr "object"),
           ("properties", .vobj (a.input.map (fun kv => (kv.1, paramProperty groupsU kv.2)))),
           ("required", .varr (a.input.map (fun kv => .vstr kv.1))),
           ("additionalProperties", .vbool false)])]),
     ("required", .varr [.vstr "action", .vstr "params"]),
     ("additionalProperties", .vbool false)]

/-- The definitions record built by createJsonSchema (src/lib/utils.ts:66-119):
one entry per action keyed by the action name, then one
`ActionUnionThatOutputs_<identity>` entry per output group, then the
`ActionUnion` entry; assignments use JavaScript record-overwrite semantics. -/
def definitions (reg : Registry) : List (String × Value) :=
  let groupsU := actionsByOutputType reg
  let d1 := reg.foldl (fun defs kv => recSet defs kv.1 (actionDefinition groupsU kv.1 kv.2)) []
  let d2 := groupsU.foldl (fun defs g =>
    recSet defs (unionTag ++ g.1)
      (.vobj [("anyOf", .varr (g.2.map
        (fun n => Value.vobj [("$ref", .vstr ("#/definitions/" ++ n))])))])) d1
  recSet d2 "ActionUnion"
    (.vobj [("anyOf", .varr (reg.map
      (fun kv => Value.vobj [("$ref", .vstr ("#/definitions/" ++ kv.1))])))])

/-- The full createJsonSchema result (src/lib/utils.ts:121-139). -/
def createJsonSchema (reg : Registry) : Value :=
  .vobj
    [("type", .vstr "json_schema"),
     ("json_schema", .vobj
       [("name", .vstr "schema"),
        ("strict", .vbool true),
        ("schema", .vobj
          [("type", .vstr "object"),
           ("properties", .vobj [("execution", .vobj [("$ref", .vstr "#/definitions/ActionUnion")])]),
           ("required", .varr [.vstr "execution"]),
           ("additionalProperties", .vbool false),
           ("definitions", .vobj (definitions reg)),
           ("$schema", .vstr "http://json-schema.org/draft-07/schema#")])])]

end Utils

/-! Test fixtures (src/lib/test.ts)

The executors model the fixture functions for the values the tests exercise.
`parseIntStr` models JavaScript's `Number(text)` for the optionally-signed
decimal integer strings the fixtures use (including `Number("") = 0`). -/

def digitVal (c : Char) : Option Nat :=
  if 48 ≤ c.toNat ∧ c.toNat ≤ 57 then some (c.toNat - 48) else none

def parseDigitsAux (acc : Nat) : List Char → Option Nat
  | [] => some acc
  | c :: rest =>
    match digitVal c with
    | some d => parseDigitsAux (acc * 10 + d) rest
    | none => none

def parseIntStr (s : String) : Option Int :=
  match s.data with
  | '-' :: rest =>
    match rest with
    | [] => none
    | _ => (parseDigitsAux 0 rest).map (fun n => -(n : Int))
  | l => (parseDigitsAux 0 l).map (fun n => (n : Int))

def stringToNumberDef : ActionDef :=
  { input := [("text", .zstring)]
    output := .znumber
    exec := fun v =>
      match v.getField "text" with
      | some (.vstr s) =>
        match parseIntStr s with
        | some n => .ok (.vnum n)
        | none => .error "NaN"
      | _ => .error "invalid input" }

def numberToStringDef : ActionDef :=
  { input := [("num", .znumber)]
    output := .zstring
    exec := fun v =>
      match v.getField "num" with
      | some (.vnum n) => .ok (.vstr (toString n))
      | _ => .error "invalid input" }

def contactSchema : ZodType :=
  .zobject false [("name", .zstring), ("email", .zstring), ("guy", .zboolean)]

def createContactDef : ActionDef :=
  { input := [("name", .zstring), ("email", .zstring), ("guy", .zboolean)]
    output := contactSchema
    exec := fun v =>
      match v.getField "name", v.getField "email", v.getField "guy" with
      | some n, some e, some g => .ok (.vobj [("name", n), ("email", e), ("guy", g)])
      | _, _, _ => .error "invalid input" }

def boolStr (b : Bool) : String := if b then "true" else "false"

def contactToStringDef : ActionDef :=
  { input := [("contact", contactSchema)]
    output := .zstring
    exec := fun v =>
      match v.getField "contact" with
      | some c =>
        match c.getField "name", c.getField "email", c.getField "guy" with
        | some (.vstr n), some (.vstr e), some (.vbool g) =>
          .ok (.vstr (n ++ " <" ++ e ++ "> guy: " ++ boolStr g))
        | _, _, _ => .error "invalid input"
      | _ => .error "invalid input" }

/-- The registry built by the test file (src/lib/test.ts:43-48), in its
declaration order. -/
def testRegistry : Registry :=
  [("stringToNumber", stringToNumberDef),
   ("numberToString", numberToStringDef),
   ("createContact", createContactDef),
   ("contactToString", contactToStringDef)]

/-- The valid chain of src/lib/test.ts:50-60. -/
def validChain : Value :=
  .vobj [("action", .vstr "stringToNumber"),
         ("params", .vobj [("text",
           .vobj [("action", .vstr "numberToString"),
                  ("params", .vobj [("num", .vnum 3)])])])]

/-- The invalid chain of src/lib/test.ts:70-82: a createContact invocation
supplied where a string-typed parameter is declared. -/
def invalidChain : Value :=
  .vobj [("action", .vstr "stringToNumber"),
         ("params", .vobj [("text",
           .vobj [("action", .vstr "createContact"),
                  ("params", .vobj [("name", .vstr "Alice"),
                                    ("email", .vstr "alice@example.com"),
                                    ("guy", .vbool true)])])])]

/-! Order theory for the canonicalising sort -/

theorem charToNat_inj {a b : Char} (h : a.toNat = b.toNat) : a = b :=
  Char.ext (UInt32.ext h)

theorem charsLe_total : ∀ a b : List Char, charsLe a b = true ∨ charsLe b a = true := by
  intro a
  induction a with
  | nil => intro b; left; rfl
  | cons c cs ih =>
    intro b
    cases b with
    | nil => right; rfl
    | cons d ds =>
      rcases Nat.lt_trichotomy c.toNat d.toNat with h | h | h
      · left; simp [charsLe, h]
      · have h2 : ¬ c.toNat < d.toNat := by omega
        have h3 : ¬ d.toNat < c.toNat := by omega
        rcases ih ds with h4 | h4
        · left; simp [charsLe, h2, h3, h4]
        · right; simp [charsLe, h2, h3, h4]
      · right; simp [charsLe, h]

theorem charsLe_trans : ∀ a b c : List Char,
    charsLe a b = true → charsLe b c = true → charsLe a c = true := by
  intro a
  induction a with
  | nil => intro b c _ _; rfl
  | cons x xs ih =>
    intro b c hab hbc
    cases b with
    | nil => simp [charsLe] at hab
    | cons y ys =>
      cases c with
      | nil => simp [charsLe] at hbc
      | cons z zs =>
        by_cases h1 : x.toNat < y.toNat <;> by_cases h2 : y.toNat < z.toNat
        · simp [charsLe, show x.toNat < z.toNat by omega]
        · by_cases h3 : z.toNat < y.toNat
          · simp [charsLe, h3, show ¬ y.toNat < z.toNat from h2] at hbc
          · have : z.toNat = y.toNat := by omega
            simp [charsLe, show x.toNat < z.toNat by omega]
        · by_cases h3 : y.toNat < x.toNat
          · simp [charsLe, h1, h3] at hab
          · have hxy : x.toNat = y.toNat := by omega
            simp [charsLe, show x.toNat < z.toNat by omega]
        · by_cases h3 : y.toNat < x.toNat
          · simp [charsLe, h1, h3] at hab
          · by_cases h4 : z.toNat < y.toNat
            · simp [charsLe, h2, h4] at hbc
            · have hxy : x.toNat = y.toNat := by omega
              have hyz : y.toNat = z.toNat := by omega
              simp [charsLe, h1, h3] at hab
              simp [charsLe, h2, h4] at hbc
              simp [charsLe, show ¬ x.toNat < z.toNat by omega,
                    show ¬ z.toNat < x.toNat by omega]
              exact ih ys zs hab hbc

theorem charsLe_antisymm : ∀ a b : List Char,
    charsLe a b = true → charsLe b a = true → a = b := by
  intro a
  induction a with
  | nil =>
    intro b _ hba
    cases b with
    | nil => rfl
    | cons d ds => simp [charsLe] at hba
  | cons c cs ih =>
    intro b hab hba
    cases b with
    | nil => simp [charsLe] at hab
    | cons d ds =>
      by_cases h1 : c.toNat < d.toNat
      · simp [charsLe, show ¬ d.toNat < c.toNat by omega, h1] at hba
      · by_cases h2 : d.toNat < c.toNat
        · simp [charsLe, h1, h2] at hab
        · have hcd : c = d := charToNat_inj (by omega)
          simp [charsLe, h1, h2] at hab hba
          rw [hcd, ih ds hab hba]

instance : IsTotal String strLeP :=
  ⟨fun a b => charsLe_total a.data b.data⟩

instance : IsTrans String strLeP :=
  ⟨fun a b c => charsLe_trans a.data b.data c.data⟩

instance : IsAntisymm String strLeP :=
  ⟨fun a b hab hba => by
    cases a with
    | mk da => cases b with
      | mk db => exact congrArg String.mk (charsLe_antisymm da db hab hba)⟩

/-- Sorting is invariant under permutation of the input: the canonicalisation
at the heart of the order-independence claims. -/
theorem sortStr_congr {l1 l2 : List String} (h : l1.Perm l2) : sortStr l1 = sortStr l2 :=
  List.eq_of_perm_of_sorted
    (((List.perm_insertionSort strLeP l1).trans h).trans (List.perm_insertionSort strLeP l2).symm)
    (List.sorted_insertionSort strLeP l1) (List.sorted_insertionSort strLeP l2)

/-! Lemmas about the grouping record -/

theorem lookupGroup_recPush_self (m : List (String × List String)) (k v : String) :
    lookupGroup (recPush m k v) k = lookupGroup m k ++ [v] := by
  induction m with
  | nil => simp [recPush, lookupGroup, lookupKey]
  | cons kv rest ih =>
    obtain ⟨k1, vs⟩ := kv
    by_cases h : k1 = k
    · subst h
      simp [recPush, lookupGroup, lookupKey]
    · simp only [recPush, if_neg h]
      simp only [lookupGroup, lookupKey, if_neg h] at ih ⊢
      exact ih

theorem lookupGroup_recPush_ne (m : List (String × List String)) {k k' : String} (v : String)
    (h : k' ≠ k) : lookupGroup (recPush m k v) k' = lookupGroup m k' := by
  induction m with
  | nil => simp [recPush, lookupGroup, lookupKey, h.symm]
  | cons kv rest ih =>
    obtain ⟨k1, vs⟩ := kv
    by_cases h1 : k1 = k
    · subst h1
      have h2 : k1 ≠ k' := fun hh => h hh.symm
      simp [recPush, lookupGroup, lookupKey, h2]
    · by_cases h2 : k1 = k'
      · subst h2
        simp [recPush, lookupGroup, lookupKey, h1]
      · simp only [recPush, if_neg h1]
        simp only [lookupGroup, lookupKey, if_neg h2]
        simpa [lookupGroup] using ih

theorem lookupGroup_recPush_mono (m : List (String × List String)) (k v k' v' : String)
    (h : v' ∈ lookupGroup m k') : v' ∈ lookupGroup (recPush m k v) k' := by
  by_cases hk : k' = k
  · subst hk
    rw [lookupGroup_recPush_self]
    exact List.mem_append_left _ h
  · rw [lookupGroup_recPush_ne _ _ hk]
    exact h

/-- The grouping fold never removes a member from a group (generic in the
identity function used as the group key). -/
theorem groupsFold_mono (keyf : ActionDef → String) (l : Registry) :
    ∀ (m : List (String × List String)) (k v : String), v ∈ lookupGroup m k →
      v ∈ lookupGroup (l.foldl (fun m kv => recPush m (keyf kv.2) kv.1) m) k := by
  induction l with
  | nil => intro m k v h; exact h
  | cons kv rest ih =>
    intro m k v h
    exact ih _ k v (lookupGroup_recPush_mono _ _ _ _ _ h)

/-- Every registered action is a member of the group keyed by the identity of
its output schema (generic in the identity function). -/
theorem groupsFold_mem (keyf : ActionDef → String) (l : Registry) :
    ∀ (m : List (String × List String)) (n : String) (a : ActionDef), (n, a) ∈ l →
      n ∈ lookupGroup (l.foldl (fun m kv => recPush m (keyf kv.2) kv.1) m) (keyf a) := by
  induction l with
  | nil => intro m n a h; cases h
  | cons kv rest ih =>
    intro m n a h
    rcases List.mem_cons.mp h with h1 | h1
    · subst h1
      exact groupsFold_mono keyf rest _ _ _
        (by rw [lookupGroup_recPush_self]; exact List.mem_append_right _ (by simp))
    · exact ih _ n a h1

theorem actionsByOutputName_mem {reg : Registry} {n : String} {a : ActionDef}
    (h : (n, a) ∈ reg) : n ∈ lookupGroup (actionsByOutputName reg) (stableName a.output) :=
  groupsFold_mem (fun a => stableName a.output) reg [] n a h

/-! Claim C1: structural, order-independent type identity -/

/-- For any fuel, permuting an object schema's field list does not change its
signature, because the per-field entries are sorted before concatenation; the
strictness marker is also ignored. -/
theorem sigF_zobject_perm (fuel : Nat) (s1 s2 : Bool) {shape1 shape2 : List (String × ZodType)}
    (h : shape1.Perm shape2) :
    sigF fuel (.zobject s1 shape1) = sigF fuel (.zobject s2 shape2) := by
  cases fuel with
  | zero => rfl
  | succ fuel =>
    show "object_" ++ joinSep "_" (sortStr _) = "object_" ++ joinSep "_" (sortStr _)
    rw [sortStr_congr (h.map (fun kv => kv.1 ++ "-" ++ sigF fuel kv.2))]

/-- Claim C1. The type identity is order-independent and purely structural:
two object schemas whose field lists carry the same name-to-type mapping in
any declaration order (and declared at any site: schemas are compared purely
structurally, never by object identity) have the same generateSignature
string and the same stableName token, and the output grouping index puts any
two actions with such outputs into the same group. -/
theorem claim_C1_identity_order_independent (s1 s2 : Bool)
    {shape1 shape2 : List (String × ZodType)} (h : shape1.Perm shape2) :
    generateSignature (.zobject s1 shape1) = generateSignature (.zobject s2 shape2) ∧
    stableName (.zobject s1 shape1) = stableName (.zobject s2 shape2) ∧
    (∀ (reg : Registry) (n1 n2 : String) (a1 a2 : ActionDef),
      (n1, a1) ∈ reg → (n2, a2) ∈ reg →
      a1.output = .zobject s1 shape1 → a2.output = .zobject s2 shape2 →
      ∃ group, lookupKey (actionsByOutputName reg) (stableName a1.output) = some group ∧
        n1 ∈ group ∧ n2 ∈ group) := by
  have hsig : generateSignature (.zobject s1 shape1) = generateSignature (.zobject s2 shape2) :=
    sigF_zobject_perm bigFuel s1 s2 h
  have hname : stableName (.zobject s1 shape1) = stableName (.zobject s2 shape2) := by
    unfold stableName; rw [hsig]
  refine ⟨hsig, hname, ?_⟩
  intro reg n1 n2 a1 a2 h1 h2 ho1 ho2
  have m1 : n1 ∈ lookupGroup (actionsByOutputName reg) (stableName a1.output) :=
    actionsByOutputName_mem h1
  have m2 : n2 ∈ lookupGroup (actionsByOutputName reg) (stableName a2.output) :=
    actionsByOutputName_mem h2
  have hkey : stableName a2.output = stableName a1.output := by rw [ho1, ho2, hname]
  rw [hkey] at m2
  cases hg : lookupKey (actionsByOutputName reg) (stableName a1.output) with
  | none => unfold lookupGroup at m1; rw [hg] at m1; cases m1
  | some group =>
    refine ⟨group, rfl, ?_, ?_⟩
    · unfold lookupGroup at m1; rw [hg] at m1; exact m1
    · unfold lookupGroup at m2; rw [hg] at m2; exact m2

def c1Out1 : ZodType := .zobject false [("a", .zstring), ("b", .znumber)]
def c1Out2 : ZodType := .zobject false [("b", .znumber), ("a", .zstring)]

def c1Action1 : ActionDef :=
  { input := [("x", .zstring)], output := c1Out1, exec := fun _ => .ok (.vnum 1) }

def c1Action2 : ActionDef :=
  { input := [("y", .znumber)], output := c1Out2, exec := fun _ => .ok (.vnum 2) }

def c1Registry : Registry := [("mkFirst", c1Action1), ("mkSecond", c1Action2)]

/-- Witness for claim C1: two independently declared object types with the
same fields in opposite order, used as outputs of two different actions, get
the same signature, the same stable name, and land in the same output group. -/
theorem claim_C1_witness :
    generateSignature c1Out1 = generateSignature c1Out2 ∧
    stableName c1Out1 = stableName c1Out2 ∧
    ∃ group, lookupKey (actionsByOutputName c1Registry) (stableName c1Action1.output) = some group ∧
      "mkFirst" ∈ group ∧ "mkSecond" ∈ group := by
  have h := claim_C1_identity_order_independent false false
    (List.Perm.swap ("b", ZodType.znumber) ("a", ZodType.zstring) [])
  exact ⟨h.1, h.2.1,
    h.2.2 c1Registry "mkFirst" "mkSecond" c1Action1 c1Action2
      (List.mem_cons_self _ _) (List.mem_cons_of_mem _ (List.mem_cons_self _ _)) rfl rfl⟩

/-! Claim C10: the "unknown" fallback bucket -/

/-- Schema kinds that generateSignature's switch does not handle (its default
case): optional, nullable, default, date, lazy, and every other zod kind. -/
def unsupportedKind : ZodType → Bool
  | .zoptional _ => true
  | .znullable _ => true
  | .zdefault _ => true
  | .zdate => true
  | .zlazy _ => true
  | .zother _ => true
  | _ => false

theorem generateSignature_unsupported {t : ZodType} (h : unsupportedKind t = true) :
    generateSignature t = "unknown" := by
  cases t <;> first | rfl | exact absurd h (by simp [unsupportedKind])

/-- Claim C10. Every action whose output schema is of a kind unhandled by the
signature function receives the single fallback identity: its signature is
"unknown", any two such actions share one stableName token and are grouped
together, and for every parameter whose schema is also of an unhandled kind
the assembled parameter validator is a union containing the invocation schema
handle of each such action. -/
theorem claim_C10_unknown_fallback (reg : Registry) (n1 n2 : String) (a1 a2 : ActionDef)
    (p : ZodType) (h1 : (n1, a1) ∈ reg) (h2 : (n2, a2) ∈ reg)
    (hu1 : unsupportedKind a1.output = true) (hu2 : unsupportedKind a2.output = true) :
    (generateSignature a1.output = "unknown" ∧ generateSignature a2.output = "unknown" ∧
      stableName a1.output = stableName a2.output ∧
      ∃ group, lookupKey (actionsByOutputName reg) (stableName a1.output) = some group ∧
        n1 ∈ group ∧ n2 ∈ group) ∧
    (unsupportedKind p = true →
      ∃ opts, paramSchemaForType (actionsByOutputName reg) p = .zunion (p :: opts) ∧
        ZodType.zlazy n1 ∈ opts ∧ ZodType.zlazy n2 ∈ opts) := by
  have hs1 := generateSignature_unsupported hu1
  have hs2 := generateSignature_unsupported hu2
  have hname : stableName a1.output = stableName a2.output := by
    unfold stableName; rw [hs1, hs2]
  have m1 : n1 ∈ lookupGroup (actionsByOutputName reg) (stableName a1.output) :=
    actionsByOutputName_mem h1
  have m2 : n2 ∈ lookupGroup (actionsByOutputName reg) (stableName a1.output) := by
    rw [hname]; exact actionsByOutputName_mem h2
  constructor
  · refine ⟨hs1, hs2, hname, ?_⟩
    cases hg : lookupKey (actionsByOutputName reg) (stableName a1.output) with
    | none => unfold lookupGroup at m1; rw [hg] at m1; cases m1
    | some group =>
      refine ⟨group, rfl, ?_, ?_⟩
      · unfold lookupGroup at m1; rw [hg] at m1; exact m1
      · unfold lookupGroup at m2; rw [hg] at m2; exact m2
  · intro hp
    have hkey : stableName p = stableName a1.output := by
      unfold stableName; rw [generateSignature_unsupported hp, hs1]
    have macts1 : ZodType.zlazy n1 ∈ (lookupGroup (actionsByOutputName reg) (stableName p)).map
        ZodType.zlazy := by
      rw [hkey]; exact List.mem_map_of_mem _ m1
    have macts2 : ZodType.zlazy n2 ∈ (lookupGroup (actionsByOutputName reg) (stableName p)).map
        ZodType.zlazy := by
      rw [hkey]; exact List.mem_map_of_mem _ m2
    refine ⟨(lookupGroup (actionsByOutputName reg) (stableName p)).map ZodType.zlazy, ?_, macts1, macts2⟩
    unfold paramSchemaForType
    rw [if_neg]
    simp only [List.isEmpty_eq_true]
    exact fun hnil => by rw [hnil] at macts1; cases macts1

def c10Action1 : ActionDef :=
  { input := [("arg", .zother "ZodMap")], output := .zother "ZodPromise",
    exec := fun _ => .ok (.vnum 1) }

def c10Action2 : ActionDef :=
  { input := [], output := .zlazy "elsewhere", exec := fun _ => .ok (.vstr "x") }

def c10Registry : Registry := [("unsup1", c10Action1), ("unsup2", c10Action2)]

/-- Witness for claim C10: two actions with structurally unrelated unsupported
output kinds (a promise-typed output and a lazy-typed output) share one
identity token and one group, and both become alternatives of the parameter
validator for an unsupported map-typed parameter. -/
theorem claim_C10_witness :
    stableName c10Action1.output = stableName c10Action2.output ∧
    (∃ group, lookupKey (actionsByOutputName c10Registry) (stableName c10Action1.output) =
      some group ∧ "unsup1" ∈ group ∧ "unsup2" ∈ group) ∧
    ∃ opts, paramSchemaForType (actionsByOutputName c10Registry) (.zother "ZodMap") =
      .zunion (.zother "ZodMap" :: opts) ∧
      ZodType.zlazy "unsup1" ∈ opts ∧ ZodType.zlazy "unsup2" ∈ opts := by
  have h := claim_C10_unknown_fallback c10Registry "unsup1" "unsup2" c10Action1 c10Action2
    (.zother "ZodMap") (List.mem_cons_self _ _) (List.mem_cons_of_mem _ (List.mem_cons_self _ _))
    rfl rfl
  exact ⟨h.1.2.2.1, h.1.2.2.2, h.2 rfl⟩

/-! Claim C2: the round-trip chain -/

/-- Claim C2. With the test registry, executing
stringToNumber(text := numberToString(num := 3)) resolves the nested
invocation first (the trace shows numberToString's executor completing before
stringToNumber's) and returns the numeric value 3. -/
theorem claim_C2_round_trip :
    execute testRegistry validChain = .ok (.vnum 3) ∧
    (executeF testRegistry bigFuel validChain).1.map Prod.fst =
      ["numberToString", "stringToNumber"] :=
  ⟨rfl, rfl⟩

/-! Claim C3 (corrected): unknown action names

The claim asserts execute raises UnknownAction before any resolution. In the
source, execute first validates the invocation against the assembled chain
schema (src/index.ts:212); an unknown top-level action name fails that parse,
so the raised error is the chain-shape ZodError, not the executor's
`Unknown action` error. The UnknownAction error is raised by executeAction
(src/index.ts:231), i.e. when the resolver is reached directly. -/

def unknownChain : Value := .vobj [("action", .vstr "doesNotExist"), ("params", .vobj [])]

/-- Counterexample to claim C3 as stated: on the test registry,
execute({action: doesNotExist, params: {}}) raises the chain-shape error,
which is not UnknownAction. -/
theorem claim_C3_counterexample :
    execute testRegistry unknownChain = .error .chainShape ∧
    ExecErr.chainShape ≠ ExecErr.unknownAction "doesNotExist" :=
  ⟨rfl, by decide⟩

theorem lookupKey_map_keyed {α β : Type} (f : String → α → β) :
    ∀ (l : List (String × α)) (n : String),
      lookupKey (l.map (fun kv => (kv.1, f kv.1 kv.2))) n = (lookupKey l n).map (f n) := by
  intro l
  induction l with
  | nil => intro n; rfl
  | cons kv rest ih =>
    intro n
    obtain ⟨k1, a1⟩ := kv
    by_cases h : k1 = n
    · subst h; simp [lookupKey]
    · simp [lookupKey, h, ih]

theorem lookupKey_none_forall {α : Type} :
    ∀ (l : List (String × α)) (n : String), lookupKey l n = none →
      ∀ p ∈ l, (p : String × α).1 ≠ n := by
  intro l
  induction l with
  | nil => intro n _ p hp; cases hp
  | cons kv rest ih =>
    intro n hl p hp
    by_cases h : kv.1 = n
    · obtain ⟨k1, a1⟩ := kv
      simp only at h
      simp [lookupKey, h] at hl
    · rcases List.mem_cons.mp hp with h1 | h1
      · subst h1; exact h
      · obtain ⟨k1, a1⟩ := kv
        simp only [lookupKey, if_neg h] at hl
        exact ih n hl p h1

/-- An action body schema rejects (for every fuel) any value whose `action`
field is a string different from the body's action-name literal. -/
theorem actionBody_parse_fails (arena : List (String × ZodType)) :
    ∀ (fuel : Nat) (groups : List (String × List String)) (n : String) (a : ActionDef)
      (inv : Value) (name : String),
      inv.getField "action" = some (.vstr name) → n ≠ name →
      ∃ e, zodParseF arena fuel (actionBodySchema groups n a) inv = .error e := by
  intro fuel groups n a inv name hf hne
  cases fuel with
  | zero => exact ⟨.outOfFuel, rfl⟩
  | succ fuel =>
    cases inv with
    | vobj m =>
      have hlk : lookupKey m "action" = some (.vstr name) := hf
      have hb : ∀ f, vbeqF f (.vstr n) (.vstr name) = false := by
        intro f
        cases f with
        | zero => rfl
        | succ f2 => simp [vbeqF, hne]
      have hlit : ∃ e, zodParseF arena fuel (.zliteral (.vstr n)) (.vstr name) = .error e := by
        cases fuel with
        | zero => exact ⟨.outOfFuel, rfl⟩
        | succ fuel2 =>
          refine ⟨.invalid, ?_⟩
          simp only [zodParseF, hb fuel2]
          rfl
      obtain ⟨e, he⟩ := hlit
      refine ⟨e, ?_⟩
      unfold actionBodySchema
      simp only [zodParseF, Bool.false_and, Bool.false_eq_true, if_false]
      unfold parseFieldsF
      simp only [hlk, he]
    | vstr s => exact ⟨.invalid, rfl⟩
    | vnum x => exact ⟨.invalid, rfl⟩
    | vbool b => exact ⟨.invalid, rfl⟩
    | varr l => exact ⟨.invalid, rfl⟩

/-- A lazy handle to any registered action rejects (for every fuel) a value
whose `action` field names no registered action. -/
theorem lazy_option_parse_fails (reg : Registry) :
    ∀ (fuel : Nat) (n : String) (inv : Value) (name : String),
      inv.getField "action" = some (.vstr name) →
      (∀ p ∈ reg, (p : String × ActionDef).1 ≠ name) →
      ∃ e, zodParseF (schemaArena reg) fuel (.zlazy n) inv = .error e := by
  intro fuel n inv name hf hnames
  cases fuel with
  | zero => exact ⟨.outOfFuel, rfl⟩
  | succ fuel =>
    show ∃ e, (match lookupKey (schemaArena reg) n with
      | some body => zodParseF (schemaArena reg) fuel body inv
      | none => .error .invalid) = .error e
    have harena : lookupKey (schemaArena reg) n =
        (lookupKey reg n).map (fun a => actionBodySchema (actionsByOutputName reg) n a) :=
      lookupKey_map_keyed _ reg n
    cases hr : lookupKey reg n with
    | none => rw [harena, hr]; exact ⟨.invalid, rfl⟩
    | some a =>
      rw [harena, hr]
      have hne : n ≠ name := by
        intro hnn
        subst hnn
        have : ∃ p ∈ reg, (p : String × ActionDef).1 = n := by
          clear hf hnames harena
          induction reg with
          | nil => cases hr
          | cons kv rest ih =>
            by_cases h : kv.1 = n
            · exact ⟨kv, List.mem_cons_self _ _, h⟩
            · obtain ⟨k1, a1⟩ := kv
              simp only [lookupKey, if_neg h] at hr
              obtain ⟨p, hp, hp1⟩ := ih hr
              exact ⟨p, List.mem_cons_of_mem _ hp, hp1⟩
        obtain ⟨p, hp, hp1⟩ := this
        exact hnames p hp hp1
      exact actionBody_parse_fails (schemaArena reg) fuel (actionsByOutputName reg) n a inv name hf hne

theorem parseFirst_all_fail (parse : ZodType → Value → Except PErr Value) (v : Value) :
    ∀ (opts : List ZodType), (∀ t ∈ opts, ∃ e, parse t v = .error e) →
      ∃ e, parseFirstF parse v opts = .error e := by
  intro opts
  induction opts with
  | nil => intro _; exact ⟨.invalid, rfl⟩
  | cons t rest ih =>
    intro h
    obtain ⟨e, he⟩ := h t (List.mem_cons_self _ _)
    obtain ⟨e2, he2⟩ := ih (fun t2 ht2 => h t2 (List.mem_cons_of_mem _ ht2))
    refine ⟨e2, ?_⟩
    unfold parseFirstF
    rw [he]
    exact he2

/-- The assembled top-level action union rejects (for every fuel) a value
whose `action` field names no registered action. -/
theorem actionUnion_parse_fails (reg : Registry) (inv : Value) (name : String)
    (hf : inv.getField "action" = some (.vstr name))
    (hnames : ∀ p ∈ reg, (p : String × ActionDef).1 ≠ name) :
    ∀ fuel, ∃ e, zodParseF (schemaArena reg) fuel (actionUnionSchema reg) inv = .error e := by
  intro fuel
  match hr : reg with
  | [] =>
    cases fuel with
    | zero => exact ⟨.outOfFuel, rfl⟩
    | succ fuel => exact ⟨.invalid, rfl⟩
  | [kv] =>
    exact lazy_option_parse_fails [kv] fuel kv.1 inv name hf (hr ▸ hnames)
  | kv1 :: kv2 :: rest =>
    cases fuel with
    | zero => exact ⟨.outOfFuel, rfl⟩
    | succ fuel =>
      have hopts : ∀ t ∈ (kv1 :: kv2 :: rest).map (fun kv => ZodType.zlazy kv.1),
          ∃ e, zodParseF (schemaArena (kv1 :: kv2 :: rest)) fuel t inv = .error e := by
        intro t ht
        obtain ⟨kv, _, hkv⟩ := List.mem_map.mp ht
        subst hkv
        exact lazy_option_parse_fails _ fuel kv.1 inv name hf (hr ▸ hnames)
      obtain ⟨e, he⟩ := parseFirst_all_fail
        (zodParseF (schemaArena (kv1 :: kv2 :: rest)) fuel) inv _ hopts
      exact ⟨e, he⟩

/-- The whole chain-shape validation of execute rejects (for every fuel) an
invocation whose `action` field names no registered action. -/
theorem topSchema_parse_fails (reg : Registry) (inv : Value) (name : String)
    (hf : inv.getField "action" = some (.vstr name))
    (hnone : lookupKey reg name = none) :
    ∀ fuel, ∃ e, zodParseF (schemaArena reg) fuel (topSchema reg)
      (.vobj [("execution", inv)]) = .error e := by
  have hnames : ∀ p ∈ reg, (p : String × ActionDef).1 ≠ name :=
    lookupKey_none_forall reg name hnone
  intro fuel
  cases fuel with
  | zero => exact ⟨.outOfFuel, rfl⟩
  | succ fuel =>
    obtain ⟨e, he⟩ := actionUnion_parse_fails reg inv name hf hnames fuel
    refine ⟨e, ?_⟩
    unfold topSchema
    simp only [zodParseF]
    have hcond : (true && ([(("execution" : String), inv)].any
        (fun kv => !(hasKey [(("execution" : String), actionUnionSchema reg)] kv.1)))) = false := rfl
    rw [hcond]
    simp only [Bool.false_eq_true, if_false]
    unfold parseFieldsF
    have hlk : lookupKey [(("execution" : String), inv)] "execution" = some inv := rfl
    simp only [hlk, he]

/-- Claim C3 (amended). For every invocation whose action name is absent from
the registry: execute rejects it with the chain-shape validation error (the
top-level schema parse fails before any resolution) and invokes no executor;
the UnknownAction error is what executeAction, the resolver itself, raises —
also before resolving any params and without invoking any executor. -/
theorem claim_C3_amended_unknown_action (reg : Registry) (inv : Value) (name : String)
    (hf : inv.getField "action" = some (.vstr name))
    (hnone : lookupKey reg name = none) :
    (∀ fuel, executeF reg fuel inv = ([], .error .chainShape)) ∧
    (∀ fuel, executeActionF reg (fuel + 1) inv = ([], .error (.unknownAction name))) ∧
    execute reg inv = .error .chainShape ∧
    executeAction reg inv = .error (.unknownAction name) := by
  have hexecF : ∀ fuel, executeF reg fuel inv = ([], .error .chainShape) := by
    intro fuel
    obtain ⟨e, he⟩ := topSchema_parse_fails reg inv name hf hnone fuel
    unfold executeF
    simp only [he]
  have hexecA : ∀ fuel, executeActionF reg (fuel + 1) inv = ([], .error (.unknownAction name)) := by
    intro fuel
    simp only [executeActionF, hf, hnone]
  refine ⟨hexecF, hexecA, ?_, ?_⟩
  · show (executeF reg bigFuel inv).2 = .error .chainShape
    rw [hexecF bigFuel]
  · show (executeActionF reg bigFuel inv).2 = .error (.unknownAction name)
    have hbig : bigFuel = (2 ^ 64 - 1) + 1 := rfl
    rw [hbig, hexecA (2 ^ 64 - 1)]

/-- Witness for the amended claim C3, at the concrete unknown-action
invocation of the spec's test list. -/
theorem claim_C3_amended_witness :
    execute testRegistry unknownChain = .error .chainShape ∧
    executeAction testRegistry unknownChain = .error (.unknownAction "doesNotExist") := by
  have h := claim_C3_amended_unknown_action testRegistry unknownChain "doesNotExist" rfl rfl
  exact ⟨h.2.2.1, h.2.2.2⟩

/-! Claim C4 (corrected): mismatched nested invocations

The claim asserts that a nested invocation whose output identity differs from
the receiving parameter's identity fails with InputValidationError at the
resolution of that node. Which error actually surfaces depends on whether the
mismatched invocation object happens to satisfy some branch of the
parameter's validator. For the spec's own mismatch fixture (the invalidChain
of src/lib/test.ts: a createContact invocation supplied to stringToNumber's
string-typed text parameter) no branch accepts it, so execute raises the
chain-shape ZodError from the mandatory top-level parse before any resolution
and no executor runs; the predicted InputValidationError appears for that
tree when the resolver executeAction is applied to it directly, and by then
the nested createContact executor has already run. But the chain-shape parse
is not a general guarantee: when the receiving parameter is an object type
whose shape contains an `action` field, the parameter's own literal branch
(a non-strict object schema) accepts the mismatched invocation, stripping its
`params` key, and then the resolver hijacks the stripped object, so execute
itself fails with InputValidationError at that node — the c4Hijack fixtures
below realise this. -/

def parsedContact : Value :=
  .vobj [("name", .vstr "Alice"), ("email", .vstr "alice@example.com"), ("guy", .vbool true)]

/-- Counterexample to claim C4 as stated: the shape-mismatched chain of
src/lib/test.ts (createContact output supplied to the string-typed text
parameter) makes execute fail with the chain-shape error, with no executor
invoked, rather than with InputValidationError at that node's resolution. -/
theorem claim_C4_counterexample :
    execute testRegistry invalidChain = .error .chainShape ∧
    (executeF testRegistry bigFuel invalidChain).1 = [] ∧
    ExecErr.chainShape ≠ ExecErr.inputValidation "stringToNumber" :=
  ⟨rfl, rfl, by decide⟩

/-- An action taking an object-typed parameter whose shape contains an
`action` field: the literal branch of that parameter's validator is a
non-strict object schema that also accepts invocation objects. -/
def c4TakesObjDef : ActionDef :=
  { input := [("data", .zobject false [("action", .zstring)])]
    output := .zstring
    exec := fun _ => .ok (.vstr "done") }

/-- An action whose output identity (number) differs from the identity of
c4TakesObjDef's `data` parameter (an object type) and whose input requires a
field `x`. -/
def c4SomeActionDef : ActionDef :=
  { input := [("x", .znumber)]
    output := .znumber
    exec := fun v => match v.getField "x" with
      | some w => .ok w
      | none => .error "missing x" }

def c4HijackRegistry : Registry :=
  [("takesObj", c4TakesObjDef), ("someAction", c4SomeActionDef)]

/-- A mismatched tree: the someAction invocation (output identity: number) is
supplied to the `data` parameter (identity: an object type). -/
def c4HijackChain : Value :=
  .vobj [("action", .vstr "takesObj"),
         ("params", .vobj [("data",
           .vobj [("action", .vstr "someAction"),
                  ("params", .vobj [("x", .vnum 1)])])])]

/-- The chain-shape parse accepts c4HijackChain through the `data`
parameter's literal object branch, stripping the nested `params` key. -/
def c4ParsedChain : Value :=
  .vobj [("execution",
    .vobj [("action", .vstr "takesObj"),
           ("params", .vobj [("data",
             .vobj [("action", .vstr "someAction")])])])]

/-- Claim C4 (amended). At the mismatch chain of the test file: execute fails
with the chain-shape validation error from the top-level parse, before any
resolution, and invokes no executor (so no partial result exists); applying
the resolver executeAction directly to the same tree runs the nested
createContact executor and then fails with InputValidationError when the
resolved input is validated against stringToNumber's own input schema.
Neither error kind is universal over mismatched trees: for the c4Hijack
fixtures, whose nested invocation's output identity (number) likewise differs
from the receiving parameter's identity (an object type containing an
`action` field), the tree passes the chain-shape parse — the parameter's
non-strict literal object branch accepts the invocation and strips its
`params` key — and execute itself fails with InputValidationError at that
node's resolution, again with no executor invoked. -/
theorem claim_C4_amended_mismatch_rejection :
    execute testRegistry invalidChain = .error .chainShape ∧
    (executeF testRegistry bigFuel invalidChain).1 = [] ∧
    executeActionF testRegistry bigFuel invalidChain =
      ([("createContact", parsedContact)], .error (.inputValidation "stringToNumber")) ∧
    stableName c4SomeActionDef.output ≠
      stableName (.zobject false [("action", .zstring)]) ∧
    zodParse (schemaArena c4HijackRegistry) (topSchema c4HijackRegistry)
      (.vobj [("execution", c4HijackChain)]) = .ok c4ParsedChain ∧
    execute c4HijackRegistry c4HijackChain = .error (.inputValidation "someAction") ∧
    (executeF c4HijackRegistry bigFuel c4HijackChain).1 = [] :=
  ⟨rfl, rfl, rfl, by decide, rfl, rfl, rfl⟩

/-! Claim C5 (corrected): export determinism

The view of an action that the exporter can observe: its name, its input
shape and its output schema (never the executor, never object identity). -/

def actionView (kv : String × ActionDef) : String × (List (String × ZodType)) × ZodType :=
  (kv.1, kv.2.input, kv.2.output)

theorem mapView_cons {kv1 kv2 : String × ActionDef} {r1 r2 : Registry}
    (h : (kv1 :: r1).map actionView = (kv2 :: r2).map actionView) :
    kv1.1 = kv2.1 ∧ kv1.2.input = kv2.2.input ∧ kv1.2.output = kv2.2.output ∧
      r1.map actionView = r2.map actionView := by
  simp only [List.map_cons, List.cons.injEq, actionView, Prod.mk.injEq] at h
  exact ⟨h.1.1, h.1.2.1, h.1.2.2, h.2⟩

theorem mapView_names {reg1 reg2 : Registry}
    (h : reg1.map actionView = reg2.map actionView) :
    reg1.map (fun kv => kv.1) = reg2.map (fun kv => kv.1) := by
  have := congrArg (List.map (fun t : String × (List (String × ZodType)) × ZodType => t.1)) h
  simpa [List.map_map, Function.comp] using this

theorem actionsByOutputName_congr {reg1 reg2 : Registry}
    (h : reg1.map actionView = reg2.map actionView) :
    actionsByOutputName reg1 = actionsByOutputName reg2 := by
  show reg1.foldl _ [] = reg2.foldl _ []
  suffices hgen : ∀ (reg1 reg2 : Registry), reg1.map actionView = reg2.map actionView →
      ∀ (m : List (String × List String)),
      reg1.foldl (fun m kv => recPush m (stableName kv.2.output) kv.1) m =
      reg2.foldl (fun m kv => recPush m (stableName kv.2.output) kv.1) m from
    hgen reg1 reg2 h []
  intro reg1
  induction reg1 with
  | nil => intro reg2 h m; cases reg2 with
    | nil => rfl
    | cons kv2 r2 => simp [List.map] at h
  | cons kv1 r1 ih =>
    intro reg2 h m
    cases reg2 with
    | nil => simp [List.map] at h
    | cons kv2 r2 =>
      obtain ⟨hn, _, ho, hr⟩ := mapView_cons h
      simp only [List.foldl_cons]
      rw [hn, ho]
      exact ih r2 hr _

theorem ensureOutputDefinitions_congr {reg1 reg2 : Registry}
    (h : reg1.map actionView = reg2.map actionView) :
    ensureOutputDefinitions reg1 = ensureOutputDefinitions reg2 := by
  show reg1.foldlM _ [] = reg2.foldlM _ []
  suffices hgen : ∀ (reg1 reg2 : Registry), reg1.map actionView = reg2.map actionView →
      ∀ (d : List (String × Value)),
      reg1.foldlM (fun defs kv =>
        let name := stableName kv.2.output
        if (lookupKey defs name).isSome then pure defs
        else do
          let j ← zodToJsonSchema kv.2.output
          pure (defs ++ [(name, j)])) d =
      reg2.foldlM (fun defs kv =>
        let name := stableName kv.2.output
        if (lookupKey defs name).isSome then pure defs
        else do
          let j ← zodToJsonSchema kv.2.output
          pure (defs ++ [(name, j)])) d from hgen reg1 reg2 h []
  intro reg1
  induction reg1 with
  | nil => intro reg2 h d; cases reg2 with
    | nil => rfl
    | cons kv2 r2 => simp [List.map] at h
  | cons kv1 r1 ih =>
    intro reg2 h d
    cases reg2 with
    | nil => simp [List.map] at h
    | cons kv2 r2 =>
      obtain ⟨hn, _, ho, hr⟩ := mapView_cons h
      simp only [List.foldlM_cons]
      rw [ho]
      cases hstep : (if (lookupKey d (stableName kv2.2.output)).isSome then pure d
        else do
          let j ← zodToJsonSchema kv2.2.output
          pure (d ++ [(stableName kv2.2.output, j)]) : Except String (List (String × Value))) with
      | error e => rfl
      | ok d2 => exact ih r2 hr d2

theorem addActionDefinitions_congr {reg1 reg2 : Registry}
    (h : reg1.map actionView = reg2.map actionView)
    (groups : List (String × List String)) :
    ∀ (d : List (String × Value)),
    addActionDefinitions groups reg1 d = addActionDefinitions groups reg2 d := by
  unfold addActionDefinitions
  induction reg1 generalizing reg2 with
  | nil => intro d; cases reg2 with
    | nil => rfl
    | cons kv2 r2 => simp [List.map] at h
  | cons kv1 r1 ih =>
    intro d
    cases reg2 with
    | nil => simp [List.map] at h
    | cons kv2 r2 =>
      obtain ⟨hn, hi, _, hr⟩ := mapView_cons h
      simp only [List.foldlM_cons]
      rw [hn, hi]
      cases hstep : ((do
        let props ← mapFieldsE (paramToJsonSchema groups) kv2.2.input
        let req := kv2.2.input.map (fun p => Value.vstr p.1)
        pure (recSet d (kv2.1 ++ "Action") (.vobj
          [("type", .vstr "object"),
           ("properties", .vobj
             [("action", .vobj [("type", .vstr "string"), ("const", .vstr kv2.1)]),
              ("params", .vobj
                [("type", .vstr "object"),
                 ("properties", .vobj props),
                 ("required", .varr req),
                 ("additionalProperties", .vbool false)])]),
           ("required", .varr [.vstr "action", .vstr "params"]),
           ("additionalProperties", .vbool false)]))) : Except String (List (String × Value))) with
      | error e => rfl
      | ok d2 => exact ih hr d2

theorem actionUnionDoc_congr {reg1 reg2 : Registry}
    (h : reg1.map actionView = reg2.map actionView) :
    actionUnionDoc reg1 = actionUnionDoc reg2 := by
  unfold actionUnionDoc
  have hnames := mapView_names h
  have : reg1.map (fun kv => Value.vobj [("$ref", .vstr ("#/definitions/" ++ kv.1 ++ "Action"))]) =
      reg2.map (fun kv => Value.vobj [("$ref", .vstr ("#/definitions/" ++ kv.1 ++ "Action"))]) := by
    have h1 := congrArg (List.map
      (fun n => Value.vobj [("$ref", .vstr ("#/definitions/" ++ n ++ "Action"))])) hnames
    simpa [List.map_map, Function.comp] using h1
  rw [this]

/-- Claim C5 (amended). The exported interchange document is a pure function
of the declared action names and their input/output schemas in declaration
order: registries with the same names in the same order and structurally
identical (pointwise equal) schemas export byte-identical documents, even if
their executors differ or the types were declared independently. Definition
keys come from stable hashes (stableName) and action names. What fails in the
claim as stated is order-independence: union member lists follow
first-registration order, not a sorted stable key, so re-declaring the same
action set in a different order permutes union members and definition keys
and the documents are no longer byte-identical. -/
theorem claim_C5_amended_export_determinism (reg1 reg2 : Registry)
    (h : reg1.map actionView = reg2.map actionView) :
    jsonSchemaDoc reg1 = jsonSchemaDoc reg2 := by
  unfold jsonSchemaDoc
  rw [ensureOutputDefinitions_congr h, actionsByOutputName_congr h, actionUnionDoc_congr h]
  cases hE : ensureOutputDefinitions reg2 with
  | error e => rfl
  | ok defs1 =>
    show Except.bind _ _ = Except.bind _ _
    simp only [Except.bind]
    rw [addActionDefinitions_congr h]

def c5ActionA : ActionDef :=
  { input := [("x", .zstring)], output := .zstring, exec := fun _ => .ok (.vstr "a") }

def c5ActionB : ActionDef :=
  { input := [("y", .zstring)], output := .zstring, exec := fun _ => .ok (.vstr "b") }

def c5Reg1 : Registry := [("alpha", c5ActionA), ("beta", c5ActionB)]
def c5Reg2 : Registry := [("beta", c5ActionB), ("alpha", c5ActionA)]

/-- Equality test for exporter results, used to decide document identity on
concrete registries. -/
def exbeq : Except String Value → Except String Value → Bool
  | .ok a, .ok b => vbeqF bigFuel a b
  | .error a, .error b => decide (a = b)
  | _, _ => false

/-- Counterexample to claim C5 as stated: the same two actions registered in
the opposite order (a structurally identical action set) export documents
that are not byte-identical, because union member lists and definition keys
follow registration order rather than a sorted stable key. -/
theorem claim_C5_counterexample :
    c5Reg1.Perm c5Reg2 ∧ jsonSchemaDoc c5Reg1 ≠ jsonSchemaDoc c5Reg2 := by
  constructor
  · exact List.Perm.swap ("beta", c5ActionB) ("alpha", c5ActionA) []
  · intro h
    have h1 : exbeq (jsonSchemaDoc c5Reg1) (jsonSchemaDoc c5Reg1) = true := rfl
    have h2 : exbeq (jsonSchemaDoc c5Reg1) (jsonSchemaDoc c5Reg2) = false := rfl
    have h3 := congrArg (fun d => exbeq (jsonSchemaDoc c5Reg1) d) h
    exact Bool.noConfusion ((h1.symm.trans h3).trans h2)

def c5Reg1Redeclared : Registry :=
  [("alpha", { input := [("x", .zstring)], output := .zstring,
               exec := fun _ => .error "other executor" }),
   ("beta", { input := [("y", .zstring)], output := .zstring,
              exec := fun _ => .ok (.vnum 0) })]

/-- Witness for the amended claim C5: re-declaring the same action set (same
names, same order, structurally identical schemas, different executors)
yields a byte-identical document. -/
theorem claim_C5_amended_witness : jsonSchemaDoc c5Reg1 = jsonSchemaDoc c5Reg1Redeclared :=
  claim_C5_amended_export_determinism c5Reg1 c5Reg1Redeclared rfl

/-! Claim C6: completeness and exactness of createJsonSchema -/

theorem lookupKey_eq_none_iff {α : Type} (m : List (String × α)) (k : String) :
    lookupKey m k = none ↔ ∀ kv ∈ m, (kv : String × α).1 ≠ k := by
  induction m with
  | nil => simp [lookupKey]
  | cons kv rest ih =>
    by_cases h : kv.1 = k
    · obtain ⟨k1, a1⟩ := kv
      simp only at h
      subst h
      simp [lookupKey]
    · obtain ⟨k1, a1⟩ := kv
      simp only at h
      simp [lookupKey, h, ih]

theorem lookupKey_append {α : Type} (m l : List (String × α)) (k : String) :
    lookupKey (m ++ l) k = ((lookupKey m k).orElse (fun _ => lookupKey l k)) := by
  induction m with
  | nil => rfl
  | cons kv rest ih =>
    by_cases h : kv.1 = k
    · obtain ⟨k1, a1⟩ := kv
      simp_all [lookupKey]
    · obtain ⟨k1, a1⟩ := kv
      simp_all [lookupKey]

theorem strAppend_left_cancel {p t1 t2 : String} (h : p ++ t1 = p ++ t2) : t1 = t2 := by
  have h2 : (p ++ t1).data = (p ++ t2).data := congrArg String.data h
  simp only [String.data_append] at h2
  exact congrArg String.mk (List.append_cancel_left h2)

theorem unionTag_ne_actionUnion (t : String) : unionTag ++ t ≠ "ActionUnion" := by
  intro h
  have := congrArg String.length h
  rw [String.length_append] at this
  have hp : unionTag.length = 23 := rfl
  have ha : ("ActionUnion" : String).length = 11 := rfl
  omega

/-- Setting a fresh key appends it at the end of the record. -/
theorem recSet_fresh {m : List (String × Value)} {k : String} (v : Value)
    (h : ∀ kv ∈ m, (kv : String × Value).1 ≠ k) : recSet m k v = m ++ [(k, v)] := by
  induction m with
  | nil => rfl
  | cons kv rest ih =>
    obtain ⟨k1, w⟩ := kv
    have h1 : k1 ≠ k := h (k1, w) (List.mem_cons_self _ _)
    simp only [recSet, if_neg h1, List.cons_append, List.cons.injEq, true_and]
    exact ih (fun kv hkv => h kv (List.mem_cons_of_mem _ hkv))

/-- Folding record assignments with pairwise fresh keys appends the entries
in order. -/
theorem foldl_recSet_fresh {β : Type} (kf : β → String) (f : β → Value) :
    ∀ (l : List β) (defs0 : List (String × Value)),
      (∀ x ∈ l, ∀ kv ∈ defs0, (kv : String × Value).1 ≠ kf x) →
      (l.map kf).Nodup →
      l.foldl (fun defs x => recSet defs (kf x) (f x)) defs0 =
        defs0 ++ l.map (fun x => (kf x, f x)) := by
  intro l
  induction l with
  | nil => intro defs0 _ _; simp
  | cons x rest ih =>
    intro defs0 hfresh hnodup
    simp only [List.foldl_cons]
    rw [recSet_fresh (f x) (fun kv hkv => hfresh x (List.mem_cons_self _ _) kv hkv)]
    rw [ih (defs0 ++ [(kf x, f x)]) ?_ ?_]
    · simp
    · intro y hy kv hkv
      rcases List.mem_append.mp hkv with h1 | h1
      · exact hfresh y (List.mem_cons_of_mem _ hy) kv h1
      · simp only [List.mem_singleton] at h1
        subst h1
        simp only [List.map_cons, List.nodup_cons] at hnodup
        exact fun hc => hnodup.1 (by rw [show kf x = kf y from hc]; exact List.mem_map_of_mem kf hy)
    · simp only [List.map_cons, List.nodup_cons] at hnodup
      exact hnodup.2

theorem recPush_keysOf (m : List (String × List String)) (k v : String) :
    (recPush m k v).map Prod.fst = m.map Prod.fst ∨
    ((recPush m k v).map Prod.fst = m.map Prod.fst ++ [k] ∧ k ∉ m.map Prod.fst) := by
  induction m with
  | nil => right; constructor <;> simp [recPush]
  | cons kv rest ih =>
    obtain ⟨k1, vs⟩ := kv
    by_cases h : k1 = k
    · left; simp [recPush, h]
    · rcases ih with h1 | ⟨h1, h2⟩
      · left; simp [recPush, if_neg h, h1]
      · right
        constructor
        · simp [recPush, if_neg h, h1]
        · simp only [List.map_cons, List.mem_cons]
          exact fun hc => hc.elim (fun hc1 => h hc1.symm) h2

theorem groupsFold_keys_nodup (keyf : ActionDef → String) (l : Registry) :
    ∀ (m : List (String × List String)), (m.map Prod.fst).Nodup →
      ((l.foldl (fun m kv => recPush m (keyf kv.2) kv.1) m).map Prod.fst).Nodup := by
  induction l with
  | nil => intro m h; exact h
  | cons kv rest ih =>
    intro m h
    apply ih
    rcases recPush_keysOf m (keyf kv.2) kv.1 with h1 | ⟨h1, h2⟩
    · rw [h1]; exact h
    · rw [h1]
      refine List.Nodup.append h (List.nodup_singleton _) ?_
      intro a ha hak
      simp only [List.mem_singleton] at hak
      subst hak
      exact h2 ha

theorem lookupGroup_mem_keys {m : List (String × List String)} {k v : String}
    (h : v ∈ lookupGroup m k) : k ∈ m.map Prod.fst := by
  unfold lookupGroup at h
  cases hl : lookupKey m k with
  | none => rw [hl] at h; cases h
  | some g =>
    by_contra hk
    have : lookupKey m k = none := by
      rw [lookupKey_eq_none_iff]
      exact fun kv hkv hc => hk (by rw [← hc]; exact List.mem_map_of_mem Prod.fst hkv)
    rw [this] at hl
    cases hl

/-- Occurrence count of a string in a list, written directly so that every
theorem about it is self-contained. -/
def countKey : List String → String → Nat
  | [], _ => 0
  | x :: rest, k => (if x = k then 1 else 0) + countKey rest k

theorem countKey_append (l1 l2 : List String) (k : String) :
    countKey (l1 ++ l2) k = countKey l1 k + countKey l2 k := by
  induction l1 with
  | nil => simp [countKey]
  | cons x rest ih => simp [countKey, ih]; omega

theorem countKey_eq_zero {l : List String} {k : String} (h : ∀ x ∈ l, x ≠ k) :
    countKey l k = 0 := by
  induction l with
  | nil => rfl
  | cons x rest ih =>
    simp only [countKey, if_neg (h x (List.mem_cons_self _ _)), Nat.zero_add]
    exact ih (fun y hy => h y (List.mem_cons_of_mem _ hy))

theorem countKey_nodup_mem {l : List String} {k : String} (hd : l.Nodup) (hm : k ∈ l) :
    countKey l k = 1 := by
  induction l with
  | nil => cases hm
  | cons x rest ih =>
    simp only [List.nodup_cons] at hd
    rcases List.mem_cons.mp hm with rfl | h1
    · have h0 : countKey rest k = 0 :=
        countKey_eq_zero (fun y hy (hc : y = k) => hd.1 (hc ▸ hy))
      simp [countKey, h0]
    · have hx : x ≠ k := fun hc => hd.1 (hc ▸ h1)
      simp [countKey, hx, ih hd.2 h1]

theorem countKey_map_inj {β : Type} [DecidableEq β] (pf : β → String)
    (hinj : ∀ a b, pf a = pf b → a = b) :
    ∀ (l : List β) (t : β), l.Nodup →
      countKey (l.map pf) (pf t) = if t ∈ l then 1 else 0 := by
  intro l
  induction l with
  | nil => intro t _; simp [countKey]
  | cons x rest ih =>
    intro t hd
    simp only [List.nodup_cons] at hd
    by_cases h : x = t
    · subst h
      simp only [List.map_cons, countKey, if_pos rfl, List.mem_cons, true_or, if_pos]
      have : countKey (rest.map pf) (pf x) = 0 := by
        apply countKey_eq_zero
        intro y hy hc
        obtain ⟨b, hb, hbc⟩ := List.mem_map.mp hy
        exact hd.1 ((hinj b x (hbc.symm ▸ hc)) ▸ hb)
      omega
    · have hne : pf x ≠ pf t := fun hc => h (hinj x t hc)
      simp only [List.map_cons, countKey, if_neg hne]
      rw [ih t hd.2]
      have heq : (t = x ∨ t ∈ rest) ↔ (t ∈ rest) := or_iff_right (fun hc => h hc.symm)
      simp [List.mem_cons, heq]

def listStartsWith : List Char → List Char → Bool
  | [], _ => true
  | _ :: _, [] => false
  | a :: as, b :: bs => decide (a = b) && listStartsWith as bs

def strStartsWith (p s : String) : Bool := listStartsWith p.data s.data

theorem listStartsWith_append (l m : List Char) : listStartsWith l (l ++ m) = true := by
  induction l with
  | nil => rfl
  | cons a as ih => simp [listStartsWith, ih]

theorem strStartsWith_append (p t : String) : strStartsWith p (p ++ t) = true := by
  unfold strStartsWith
  rw [String.data_append]
  exact listStartsWith_append p.data t.data

/-- The definitions record of createJsonSchema, decomposed: under the natural
wellformedness conditions (unique action names that do not collide with the
reserved definition keys), it is exactly one entry per action, then one union
entry per output group, then the ActionUnion entry. -/
theorem utils_definitions_eq (reg : Registry)
    (hnodup : (reg.map Prod.fst).Nodup)
    (hAU : ∀ p ∈ reg, (p : String × ActionDef).1 ≠ "ActionUnion")
    (hPre : ∀ p ∈ reg, ∀ t, (p : String × ActionDef).1 ≠ unionTag ++ t) :
    Utils.definitions reg =
      reg.map (fun kv => (kv.1, Utils.actionDefinition (Utils.actionsByOutputType reg) kv.1 kv.2)) ++
      (Utils.actionsByOutputType reg).map (fun g => (unionTag ++ g.1,
        Value.vobj [("anyOf", .varr (g.2.map
          (fun n => Value.vobj [("$ref", .vstr ("#/definitions/" ++ n))])))])) ++
      [("ActionUnion", Value.vobj [("anyOf", .varr (reg.map
        (fun kv => Value.vobj [("$ref", .vstr ("#/definitions/" ++ kv.1))])))])] := by
  have hgnodup : ((Utils.actionsByOutputType reg).map Prod.fst).Nodup :=
    groupsFold_keys_nodup (fun a => Utils.getStableTypeName a.output) reg [] (by simp)
  simp only [Utils.definitions]
  have hd1 : reg.foldl (fun defs kv =>
      recSet defs kv.1 (Utils.actionDefinition (Utils.actionsByOutputType reg) kv.1 kv.2)) [] =
      reg.map (fun kv => (kv.1, Utils.actionDefinition (Utils.actionsByOutputType reg) kv.1 kv.2)) := by
    have := foldl_recSet_fresh (Prod.fst)
      (fun kv => Utils.actionDefinition (Utils.actionsByOutputType reg) kv.1 kv.2)
      reg [] (by intro x _ kv hkv; cases hkv) hnodup
    simpa using this
  rw [hd1]
  have hd2 := foldl_recSet_fresh
    (fun g : String × List String => unionTag ++ g.1)
    (fun g => Value.vobj [("anyOf", .varr (g.2.map
      (fun n => Value.vobj [("$ref", .vstr ("#/definitions/" ++ n))])))])
    (Utils.actionsByOutputType reg)
    (reg.map (fun kv => (kv.1, Utils.actionDefinition (Utils.actionsByOutputType reg) kv.1 kv.2)))
    (by
      intro g _ kv hkv
      obtain ⟨p, hp, hpkv⟩ := List.mem_map.mp hkv
      have : kv.1 = p.1 := by rw [← hpkv]
      rw [this]
      exact hPre p hp g.1)
    (by
      have : (Utils.actionsByOutputType reg).map (fun g => unionTag ++ g.1) =
          ((Utils.actionsByOutputType reg).map Prod.fst).map (fun t => unionTag ++ t) := by
        simp [List.map_map, Function.comp]
      rw [this]
      exact hgnodup.map (fun a b h => strAppend_left_cancel h))
  rw [hd2]
  rw [recSet_fresh _ ?_]
  intro kv hkv
  rcases List.mem_append.mp hkv with h1 | h1
  · obtain ⟨p, hp, hpkv⟩ := List.mem_map.mp h1
    have : kv.1 = p.1 := by rw [← hpkv]
    rw [this]
    exact hAU p hp
  · obtain ⟨g, _, hgkv⟩ := List.mem_map.mp h1
    have : kv.1 = unionTag ++ g.1 := by rw [← hgkv]
    rw [this]
    exact unionTag_ne_actionUnion g.1

/-- Claim C6. Under the wellformedness of a JavaScript action record (unique
action names, and names that do not collide with the reserved definition keys
"ActionUnion" and "ActionUnionThatOutputs_..."), the document exported by
createJsonSchema is complete and exact: every registered action appears
exactly once as a definition key; every output identity (the identity of some
registered action's output) appears exactly once as an
ActionUnionThatOutputs_<identity> union definition, and no other identity
does; and the top-level ActionUnion references exactly the registered actions
in order. -/
theorem claim_C6_export_completeness (reg : Registry)
    (hnodup : (reg.map Prod.fst).Nodup)
    (hAU : ∀ p ∈ reg, (p : String × ActionDef).1 ≠ "ActionUnion")
    (hPre : ∀ p ∈ reg, strStartsWith unionTag (p : String × ActionDef).1 = false) :
    (∀ n ∈ reg.map Prod.fst, countKey ((Utils.definitions reg).map Prod.fst) n = 1) ∧
    (∀ (n : String) (a : ActionDef), (n, a) ∈ reg →
      Utils.getStableTypeName a.output ∈ (Utils.actionsByOutputType reg).map Prod.fst) ∧
    (∀ t : String, countKey ((Utils.definitions reg).map Prod.fst) (unionTag ++ t) =
      if t ∈ (Utils.actionsByOutputType reg).map Prod.fst then 1 else 0) ∧
    lookupKey (Utils.definitions reg) "ActionUnion" =
      some (.vobj [("anyOf", .varr (reg.map
        (fun kv => Value.vobj [("$ref", .vstr ("#/definitions/" ++ kv.1))])))]) := by
  have hPre' : ∀ p ∈ reg, ∀ t, (p : String × ActionDef).1 ≠ unionTag ++ t := by
    intro p hp t hc
    have h1 := strStartsWith_append unionTag t
    rw [← hc, hPre p hp] at h1
    cases h1
  have hgnodup : ((Utils.actionsByOutputType reg).map Prod.fst).Nodup :=
    groupsFold_keys_nodup (fun a => Utils.getStableTypeName a.output) reg [] (by simp)
  have hdefs := utils_definitions_eq reg hnodup hAU hPre'
  have hkeys : (Utils.definitions reg).map Prod.fst =
      reg.map Prod.fst ++
      ((Utils.actionsByOutputType reg).map Prod.fst).map (fun t => unionTag ++ t) ++
      ["ActionUnion"] := by
    rw [hdefs]
    simp only [List.map_append, List.map_map]
    rfl
  refine ⟨?_, ?_, ?_, ?_⟩
  · intro n hn
    obtain ⟨p, hp, hpn⟩ := List.mem_map.mp hn
    rw [hkeys, countKey_append, countKey_append]
    have c1 : countKey (reg.map Prod.fst) n = 1 := countKey_nodup_mem hnodup hn
    have c2 : countKey (((Utils.actionsByOutputType reg).map Prod.fst).map
        (fun t => unionTag ++ t)) n = 0 := by
      apply countKey_eq_zero
      intro x hx hc
      obtain ⟨t, _, htx⟩ := List.mem_map.mp hx
      subst hc
      exact hPre' p hp t (by rw [hpn, ← htx])
    have c3 : countKey ["ActionUnion"] n = 0 := by
      apply countKey_eq_zero
      intro x hx hc
      simp only [List.mem_singleton] at hx
      subst hx
      exact hAU p hp (hpn.trans hc.symm)
    rw [c1, c2, c3]
  · intro n a hna
    exact lookupGroup_mem_keys
      (groupsFold_mem (fun a => Utils.getStableTypeName a.output) reg [] n a hna)
  · intro t
    rw [hkeys, countKey_append, countKey_append]
    have c1 : countKey (reg.map Prod.fst) (unionTag ++ t) = 0 := by
      apply countKey_eq_zero
      intro x hx hc
      obtain ⟨p, hp, hpx⟩ := List.mem_map.mp hx
      exact hPre' p hp t (by rw [hpx, hc])
    have c2 := countKey_map_inj (fun t => unionTag ++ t)
      (fun a b h => strAppend_left_cancel h)
      ((Utils.actionsByOutputType reg).map Prod.fst) t hgnodup
    have c3 : countKey ["ActionUnion"] (unionTag ++ t) = 0 := by
      apply countKey_eq_zero
      intro x hx hc
      simp only [List.mem_singleton] at hx
      subst hx
      exact unionTag_ne_actionUnion t hc.symm
    rw [c1, c2, c3]
    omega
  · rw [hdefs, lookupKey_append, lookupKey_append]
    have h1 : lookupKey (reg.map (fun kv =>
        (kv.1, Utils.actionDefinition (Utils.actionsByOutputType reg) kv.1 kv.2)))
        "ActionUnion" = none := by
      rw [lookupKey_eq_none_iff]
      intro kv hkv
      obtain ⟨p, hp, hpkv⟩ := List.mem_map.mp hkv
      have : kv.1 = p.1 := by rw [← hpkv]
      rw [this]
      exact hAU p hp
    have h2 : lookupKey ((Utils.actionsByOutputType reg).map (fun g => (unionTag ++ g.1,
        Value.vobj [("anyOf", .varr (g.2.map
          (fun n => Value.vobj [("$ref", .vstr ("#/definitions/" ++ n))])))])))
        "ActionUnion" = none := by
      rw [lookupKey_eq_none_iff]
      intro kv hkv
      obtain ⟨g, _, hgkv⟩ := List.mem_map.mp hkv
      have : kv.1 = unionTag ++ g.1 := by rw [← hgkv]
      rw [this]
      exact unionTag_ne_actionUnion g.1
    rw [h1, h2]
    rfl

/-- Witness for claim C6, at the four-action test registry. -/
theorem claim_C6_witness :
    (∀ n ∈ testRegistry.map Prod.fst,
      countKey ((Utils.definitions testRegistry).map Prod.fst) n = 1) ∧
    (∀ t : String, countKey ((Utils.definitions testRegistry).map Prod.fst) (unionTag ++ t) =
      if t ∈ (Utils.actionsByOutputType testRegistry).map Prod.fst then 1 else 0) ∧
    lookupKey (Utils.definitions testRegistry) "ActionUnion" =
      some (.vobj [("anyOf", .varr (testRegistry.map
        (fun kv => Value.vobj [("$ref", .vstr ("#/definitions/" ++ kv.1))])))]) := by
  have h := claim_C6_export_completeness testRegistry (by decide) (by decide) (by decide)
  exact ⟨h.1, h.2.2.1, h.2.2.2⟩

/-! Claim C7: defense-in-depth input validation -/

/-- Object shapes of real zod schemas have unique keys (they come from
JavaScript object literals); this records that, recursively. -/
def keysNodupBool : List (String × ZodType) → Bool
  | [] => true
  | (k, _) :: rest => !(rest.any (fun kv => decide (kv.1 = k))) && keysNodupBool rest

def wfOkF : Nat → ZodType → Bool
  | 0, _ => true
  | fuel + 1, t =>
    match t with
    | .zobject _ sh => keysNodupBool sh && sh.all (fun kv => wfOkF fuel kv.2)
    | .zunion opts => opts.all (wfOkF fuel)
    | .zarray elem => wfOkF fuel elem
    | .zoptional inner => wfOkF fuel inner
    | .znullable inner => wfOkF fuel inner
    | .zdefault inner => wfOkF fuel inner
    | _ => true

def wfSchema (s : ZodType) : Prop := ∀ fuel, wfOkF fuel s = true

theorem wfSchema_obj_nodup {strict : Bool} {sh : List (String × ZodType)}
    (h : wfSchema (.zobject strict sh)) : keysNodupBool sh = true := by
  have h1 := h 1
  simp only [wfOkF, Bool.and_eq_true] at h1
  exact h1.1

theorem wfSchema_obj_field {strict : Bool} {sh : List (String × ZodType)}
    (h : wfSchema (.zobject strict sh)) {kv : String × ZodType} (hm : kv ∈ sh) :
    wfSchema kv.2 := by
  intro fuel
  have h1 := h (fuel + 1)
  simp only [wfOkF, Bool.and_eq_true, List.all_eq_true] at h1
  exact h1.2 kv hm

theorem wfSchema_union_opt {opts : List ZodType} (h : wfSchema (.zunion opts))
    {t : ZodType} (hm : t ∈ opts) : wfSchema t := by
  intro fuel
  have h1 := h (fuel + 1)
  simp only [wfOkF, List.all_eq_true] at h1
  exact h1 t hm

theorem wfSchema_array {elem : ZodType} (h : wfSchema (.zarray elem)) : wfSchema elem := by
  intro fuel
  exact h (fuel + 1)

theorem wfSchema_optional {inner : ZodType} (h : wfSchema (.zoptional inner)) : wfSchema inner :=
  fun fuel => h (fuel + 1)

theorem wfSchema_nullable {inner : ZodType} (h : wfSchema (.znullable inner)) : wfSchema inner :=
  fun fuel => h (fuel + 1)

theorem wfSchema_default {inner : ZodType} (h : wfSchema (.zdefault inner)) : wfSchema inner :=
  fun fuel => h (fuel + 1)

/-- Successful object parsing returns exactly the shape's keys, in shape
order. -/
theorem parseFieldsF_keys (parse : ZodType → Value → Except PErr Value) :
    ∀ (shape : List (String × ZodType)) (m out : List (String × Value)),
      parseFieldsF parse shape m = .ok out → out.map Prod.fst = shape.map Prod.fst := by
  intro shape
  induction shape with
  | nil =>
    intro m out h
    simp only [parseFieldsF] at h
    cases h
    rfl
  | cons kt rest ih =>
    intro m out h
    obtain ⟨k, t⟩ := kt
    simp only [parseFieldsF] at h
    cases hl : lookupKey m k with
    | none => simp [hl] at h
    | some v =>
      simp only [hl] at h
      cases hp : parse t v with
      | error e => simp [hp] at h
      | ok pv =>
        simp only [hp] at h
        cases hr : parseFieldsF parse rest m with
        | error e => simp [hr] at h
        | ok prest =>
          simp only [hr] at h
          cases h
          simp [ih m prest hr]

/-- Parsing a field record only depends on the lookups of the shape's keys. -/
theorem parseFieldsF_congr_lookup (parse : ZodType → Value → Except PErr Value) :
    ∀ (shape : List (String × ZodType)) (m1 m2 : List (String × Value)),
      (∀ kv ∈ shape, lookupKey m1 (kv : String × ZodType).1 = lookupKey m2 kv.1) →
      parseFieldsF parse shape m1 = parseFieldsF parse shape m2 := by
  intro shape
  induction shape with
  | nil => intro m1 m2 _; rfl
  | cons kt rest ih =>
    intro m1 m2 h
    obtain ⟨k, t⟩ := kt
    simp only [parseFieldsF]
    rw [h (k, t) (List.mem_cons_self _ _)]
    rw [ih m1 m2 (fun kv hkv => h kv (List.mem_cons_of_mem _ hkv))]

/-- Re-parsing the output of a successful field-record parse succeeds, when
the shape's keys are unique and each field schema accepts its own outputs. -/
theorem parseFieldsF_ok_again (parse : ZodType → Value → Except PErr Value) :
    ∀ (shape : List (String × ZodType)) (m out : List (String × Value)),
      keysNodupBool shape = true →
      (∀ kv ∈ shape, ∀ v w, parse (kv : String × ZodType).2 v = .ok w →
        ∃ r, parse kv.2 w = .ok r) →
      parseFieldsF parse shape m = .ok out →
      ∃ out2, parseFieldsF parse shape out = .ok out2 := by
  intro shape
  induction shape with
  | nil => intro m out _ _ _; exact ⟨[], rfl⟩
  | cons kt rest ih =>
    intro m out hnd hacc h
    obtain ⟨k, t⟩ := kt
    simp only [keysNodupBool, Bool.and_eq_true, Bool.not_eq_true'] at hnd
    simp only [parseFieldsF] at h
    cases hl : lookupKey m k with
    | none => simp [hl] at h
    | some v =>
      simp only [hl] at h
      cases hp : parse t v with
      | error e => simp [hp] at h
      | ok pv =>
        simp only [hp] at h
        cases hr : parseFieldsF parse rest m with
        | error e => simp [hr] at h
        | ok prest =>
          simp only [hr] at h
          cases h
          obtain ⟨r, hrr⟩ := hacc (k, t) (List.mem_cons_self _ _) v pv hp
          obtain ⟨out2, hout2⟩ := ih m prest hnd.2
            (fun kv hkv => hacc kv (List.mem_cons_of_mem _ hkv)) hr
          have hcongr : parseFieldsF parse rest ((k, pv) :: prest) =
              parseFieldsF parse rest prest := by
            apply parseFieldsF_congr_lookup
            intro kv hkv
            have hne : kv.1 ≠ k := by
              intro hc
              have := List.any_eq_false.mp hnd.1 kv hkv
              simp [hc] at this
            have hne2 : ¬ k = kv.1 := fun hc => hne hc.symm
            simp [lookupKey, hne2]
          refine ⟨(k, r) :: out2, ?_⟩
          have hrr2 : parse t pv = .ok r := hrr
          simp [parseFieldsF, lookupKey, hrr2, hcongr, hout2]

theorem parseFirstF_ok_mem (parse : ZodType → Value → Except PErr Value) (v : Value) :
    ∀ (opts : List ZodType) (out : Value), parseFirstF parse v opts = .ok out →
      ∃ t ∈ opts, parse t v = .ok out := by
  intro opts
  induction opts with
  | nil => intro out h; simp [parseFirstF] at h
  | cons t rest ih =>
    intro out h
    simp only [parseFirstF] at h
    cases hp : parse t v with
    | ok r =>
      simp only [hp] at h
      cases h
      exact ⟨t, List.mem_cons_self _ _, hp⟩
    | error e =>
      simp only [hp] at h
      obtain ⟨t2, ht2, hp2⟩ := ih out h
      exact ⟨t2, List.mem_cons_of_mem _ ht2, hp2⟩

theorem parseFirstF_ok_of_mem (parse : ZodType → Value → Except PErr Value) (v : Value) :
    ∀ (opts : List ZodType) (t : ZodType), t ∈ opts → (∃ r, parse t v = .ok r) →
      ∃ r, parseFirstF parse v opts = .ok r := by
  intro opts
  induction opts with
  | nil => intro t ht _; cases ht
  | cons t0 rest ih =>
    intro t ht hok
    simp only [parseFirstF]
    cases hp : parse t0 v with
    | ok r => exact ⟨r, rfl⟩
    | error e =>
      rcases List.mem_cons.mp ht with rfl | ht2
      · obtain ⟨r, hr⟩ := hok
        rw [hp] at hr
        cases hr
      · exact ih t ht2 hok

theorem parseItemsF_ok_again (parse : Value → Except PErr Value)
    (hacc : ∀ v w, parse v = .ok w → ∃ r, parse w = .ok r) :
    ∀ (items outs : List Value), parseItemsF parse items = .ok outs →
      ∃ outs2, parseItemsF parse outs = .ok outs2 := by
  intro items
  induction items with
  | nil =>
    intro outs h
    simp only [parseItemsF] at h
    cases h
    exact ⟨[], rfl⟩
  | cons v rest ih =>
    intro outs h
    simp only [parseItemsF] at h
    cases hp : parse v with
    | error e => simp [hp] at h
    | ok pv =>
      simp only [hp] at h
      cases hr : parseItemsF parse rest with
      | error e => simp [hr] at h
      | ok prest =>
        simp only [hr] at h
        cases h
        obtain ⟨r, hrr⟩ := hacc v pv hp
        obtain ⟨outs2, houts2⟩ := ih prest hr
        refine ⟨r :: outs2, ?_⟩
        simp [parseItemsF, hrr, houts2]

theorem hasKey_of_mem_keys {α : Type} {m : List (String × α)} {k : String}
    (h : k ∈ m.map Prod.fst) : hasKey m k = true := by
  unfold hasKey
  cases hl : lookupKey m k with
  | some v => rfl
  | none =>
    obtain ⟨kv, hkv, hkvk⟩ := List.mem_map.mp h
    exact absurd hkvk ((lookupKey_eq_none_iff m k).mp hl kv hkv)

/-- Re-parsing the output of a successful parse (with no lazy arena, as in
per-action input validation) succeeds: once a value has passed a wellformed
schema, the stripped result it produced passes that schema as well. -/
theorem zodParse_accepts_own_output :
    ∀ (fuel : Nat) (s : ZodType) (raw out : Value), wfSchema s →
      zodParseF [] fuel s raw = .ok out → ∃ r, zodParseF [] fuel s out = .ok r := by
  intro fuel
  induction fuel with
  | zero => intro s raw out _ h; simp [zodParseF] at h
  | succ fuel ih =>
    intro s raw out hwf h
    cases s with
    | zstring =>
      cases raw <;> simp [zodParseF] at h <;> subst h <;> exact ⟨_, rfl⟩
    | znumber =>
      cases raw <;> simp [zodParseF] at h <;> subst h <;> exact ⟨_, rfl⟩
    | zboolean =>
      cases raw <;> simp [zodParseF] at h <;> subst h <;> exact ⟨_, rfl⟩
    | zvoid => simp [zodParseF] at h
    | zliteral w =>
      simp only [zodParseF] at h
      cases hb : vbeqF fuel w raw with
      | false => simp [hb] at h
      | true =>
        simp only [hb, if_true] at h
        cases h
        exact ⟨raw, by simp [zodParseF, hb]⟩
    | zobject strict shape =>
      cases raw with
      | vobj m =>
        simp only [zodParseF] at h
        cases hc : (strict && m.any (fun kv => !(hasKey shape kv.1))) with
        | true => simp [hc] at h
        | false =>
          simp only [hc, Bool.false_eq_true, if_false] at h
          cases hpf : parseFieldsF (zodParseF [] fuel) shape m with
          | error e => simp [hpf] at h
          | ok pf =>
            simp only [hpf] at h
            cases h
            have hacc : ∀ kv ∈ shape, ∀ v w,
                zodParseF [] fuel (kv : String × ZodType).2 v = .ok w →
                ∃ r, zodParseF [] fuel kv.2 w = .ok r :=
              fun kv hkv v w hvw => ih kv.2 v w (wfSchema_obj_field hwf hkv) hvw
            obtain ⟨out2, hout2⟩ := parseFieldsF_ok_again (zodParseF [] fuel) shape m pf
              (wfSchema_obj_nodup hwf) hacc hpf
            refine ⟨.vobj out2, ?_⟩
            simp only [zodParseF]
            have hkeys := parseFieldsF_keys (zodParseF [] fuel) shape m pf hpf
            have hc2 : (strict && pf.any (fun kv => !(hasKey shape kv.1))) = false := by
              cases strict with
              | false => rfl
              | true =>
                simp only [Bool.true_and]
                apply List.any_eq_false.mpr
                intro kv hkv
                have : kv.1 ∈ shape.map Prod.fst := by
                  rw [← hkeys]
                  exact List.mem_map_of_mem _ hkv
                simp [hasKey_of_mem_keys this]
            simp only [hc2, Bool.false_eq_true, if_false, hout2]
      | vstr a => simp [zodParseF] at h
      | vnum a => simp [zodParseF] at h
      | vbool a => simp [zodParseF] at h
      | varr a => simp [zodParseF] at h
    | zunion opts =>
      simp only [zodParseF] at h ⊢
      obtain ⟨t, ht, hok⟩ := parseFirstF_ok_mem (zodParseF [] fuel) raw opts out h
      exact parseFirstF_ok_of_mem (zodParseF [] fuel) out opts t ht
        (ih t raw out (wfSchema_union_opt hwf ht) hok)
    | zenum vs =>
      cases raw with
      | vstr a =>
        simp only [zodParseF] at h
        cases hc : vs.any (fun x => decide (x = a)) with
        | false => simp [hc] at h
        | true =>
          simp only [hc, if_true] at h
          cases h
          exact ⟨.vstr a, by simp [zodParseF, hc]⟩
      | vnum a => simp [zodParseF] at h
      | vbool a => simp [zodParseF] at h
      | vobj a => simp [zodParseF] at h
      | varr a => simp [zodParseF] at h
    | zarray elem =>
      cases raw with
      | varr items =>
        simp only [zodParseF] at h
        cases hpi : parseItemsF (zodParseF [] fuel elem) items with
        | error e => simp [hpi] at h
        | ok pis =>
          simp only [hpi] at h
          cases h
          obtain ⟨outs2, houts2⟩ := parseItemsF_ok_again (zodParseF [] fuel elem)
            (fun v w hvw => ih elem v w (wfSchema_array hwf) hvw) items pis hpi
          exact ⟨.varr outs2, by simp [zodParseF, houts2]⟩
      | vstr a => simp [zodParseF] at h
      | vnum a => simp [zodParseF] at h
      | vbool a => simp [zodParseF] at h
      | vobj a => simp [zodParseF] at h
    | znativeEnum vs =>
      cases raw with
      | vstr a =>
        simp only [zodParseF] at h
        cases hc : vs.any (fun x => decide (x = a)) with
        | false => simp [hc] at h
        | true =>
          simp only [hc, if_true] at h
          cases h
          exact ⟨.vstr a, by simp [zodParseF, hc]⟩
      | vnum a => simp [zodParseF] at h
      | vbool a => simp [zodParseF] at h
      | vobj a => simp [zodParseF] at h
      | varr a => simp [zodParseF] at h
    | zoptional inner =>
      exact ih inner raw out (wfSchema_optional hwf) h
    | znullable inner =>
      exact ih inner raw out (wfSchema_nullable hwf) h
    | zdefault inner =>
      exact ih inner raw out (wfSchema_default hwf) h
    | zdate => simp [zodParseF] at h
    | zlazy n => simp [zodParseF, lookupKey] at h
    | zother tn => simp [zodParseF] at h

theorem resolveParams_trace_pred (run : Value → List (String × Value) × Except ExecErr Value)
    (P : String × Value → Prop)
    (hrun : ∀ p, ∀ entry ∈ (run p).1, P entry) :
    ∀ (ps : List (String × Value)), ∀ entry ∈ (resolveParams run ps).1, P entry := by
  intro ps
  induction ps with
  | nil => intro entry h; cases h
  | cons kp rest ih =>
    intro entry h
    obtain ⟨k, p⟩ := kp
    simp only [resolveParams] at h
    by_cases hinv : isInvocationLike p
    · rw [if_pos hinv] at h
      cases hrp : run p with
      | mk log res =>
        rw [hrp] at h
        cases res with
        | error e =>
          simp only at h
          exact hrun p entry (by rw [hrp]; exact h)
        | ok out =>
          simp only at h
          cases hrr : resolveParams run rest with
          | mk log2 res2 =>
            rw [hrr] at h
            cases res2 with
            | error e =>
              simp only at h
              rcases List.mem_append.mp h with h1 | h1
              · exact hrun p entry (by rw [hrp]; exact h1)
              · exact ih entry (by rw [hrr]; exact h1)
            | ok outs =>
              simp only at h
              rcases List.mem_append.mp h with h1 | h1
              · exact hrun p entry (by rw [hrp]; exact h1)
              · exact ih entry (by rw [hrr]; exact h1)
    · rw [if_neg hinv] at h
      cases hrr : resolveParams run rest with
      | mk log2 res2 =>
        rw [hrr] at h
        cases res2 with
        | error e => exact ih entry (by rw [hrr]; exact h)
        | ok outs => exact ih entry (by rw [hrr]; exact h)

/-- Claim C7. Every executor invocation that the resolver performs (every
trace entry, including in runs that later fail) received exactly the output
of a successful validation of the fully resolved input object against that
action's own inputSchema; and (for wellformed input schemas) that received
input itself passes the action's own inputSchema. The validation is the
independent zodParse call of src/index.ts:238, performed whether or not a
chain-shape validation happened upstream. -/
theorem claim_C7_input_validation :
    ∀ (fuel : Nat) (reg : Registry) (v : Value) (name : String) (inp : Value),
      (name, inp) ∈ (executeActionF reg fuel v).1 →
      ∃ (a : ActionDef) (raw : Value), lookupKey reg name = some a ∧
        zodParse [] (inputSchema a) raw = .ok inp ∧
        (wfSchema (inputSchema a) → ∃ r, zodParse [] (inputSchema a) inp = .ok r) := by
  intro fuel
  induction fuel with
  | zero => intro reg v name inp h; simp [executeActionF] at h
  | succ fuel ih =>
    intro reg v name inp h
    simp only [executeActionF] at h
    cases hga : v.getField "action" with
    | none => rw [hga] at h; cases h
    | some w =>
      rw [hga] at h
      cases w with
      | vstr actionName =>
        cases hl : lookupKey reg actionName with
        | none => simp only [hl] at h; cases h
        | some action =>
          simp only [hl] at h
          cases hrp : resolveParams (executeActionF reg fuel)
              (match v.getField "params" with
               | some (.vobj m) => m
               | _ => []) with
          | mk log res =>
            rw [hrp] at h
            have hlog : ∀ entry ∈ log, ∃ (a : ActionDef) (raw : Value),
                lookupKey reg entry.1 = some a ∧
                zodParse [] (inputSchema a) raw = .ok entry.2 ∧
                (wfSchema (inputSchema a) → ∃ r, zodParse [] (inputSchema a) entry.2 = .ok r) := by
              intro entry hentry
              have hpred := resolveParams_trace_pred (executeActionF reg fuel)
                (fun e => ∃ (a : ActionDef) (raw : Value),
                  lookupKey reg e.1 = some a ∧
                  zodParse [] (inputSchema a) raw = .ok e.2 ∧
                  (wfSchema (inputSchema a) → ∃ r, zodParse [] (inputSchema a) e.2 = .ok r))
                (fun p e hent => ih reg p e.1 e.2 hent)
                (match v.getField "params" with
                 | some (.vobj m) => m
                 | _ => []) entry
              apply hpred
              rw [hrp]
              exact hentry
            cases res with
            | error e =>
              simp only at h
              exact hlog (name, inp) h
            | ok input =>
              simp only at h
              cases hzp : zodParse [] (inputSchema action) (.vobj input) with
              | error e => simp only [hzp] at h; exact hlog (name, inp) h
              | ok validated =>
                simp only [hzp] at h
                have hself : (name, inp) = (actionName, validated) →
                    ∃ (a : ActionDef) (raw : Value), lookupKey reg name = some a ∧
                    zodParse [] (inputSchema a) raw = .ok inp ∧
                    (wfSchema (inputSchema a) → ∃ r, zodParse [] (inputSchema a) inp = .ok r) := by
                  intro heq
                  have h1 : name = actionName := congrArg Prod.fst heq
                  have h2 : inp = validated := congrArg Prod.snd heq
                  subst h1
                  subst h2
                  exact ⟨action, .vobj input, hl, hzp,
                    fun hwf => zodParse_accepts_own_output bigFuel _ _ _ hwf hzp⟩
                cases hex : action.exec validated with
                | error msg =>
                  simp only [hex] at h
                  rcases List.mem_append.mp h with h1 | h1
                  · exact hlog (name, inp) h1
                  · simp only [List.mem_singleton] at h1
                    exact hself h1
                | ok out =>
                  simp only [hex] at h
                  rcases List.mem_append.mp h with h1 | h1
                  · exact hlog (name, inp) h1
                  · simp only [List.mem_singleton] at h1
                    exact hself h1
      | vnum x => cases h
      | vbool b => cases h
      | vobj fs => cases h
      | varr l => cases h

/-- Witness for claim C7: the stringToNumber executor invocation in the valid
chain's run received the validated input, which passes its own schema. -/
theorem claim_C7_witness :
    ∃ (a : ActionDef) (raw : Value), lookupKey testRegistry "stringToNumber" = some a ∧
      zodParse [] (inputSchema a) raw = .ok (.vobj [("text", .vstr "3")]) ∧
      (wfSchema (inputSchema a) →
        ∃ r, zodParse [] (inputSchema a) (.vobj [("text", .vstr "3")]) = .ok r) := by
  apply claim_C7_input_validation bigFuel testRegistry validChain
  have htr : (executeActionF testRegistry bigFuel validChain).1 =
      [("numberToString", .vobj [("num", .vnum 3)]),
       ("stringToNumber", .vobj [("text", .vstr "3")])] := rfl
  rw [htr]
  exact List.mem_cons_of_mem _ (List.mem_cons_self _ _)

/-! Claim C8: sequential depth-first execution order -/

/-- The postorder, declared-parameter-order listing of the action names of an
invocation tree: for each node, the traces of its invocation-shaped params in
declared order, then the node's own action. Defined purely on the tree,
independently of the registry and of the executors. -/
def expectedTraceF : Nat → Value → List String
  | 0, _ => []
  | fuel + 1, v =>
    (match v.getField "params" with
     | some (.vobj ps) =>
       (ps.map (fun kv => if isInvocationLike kv.2 then expectedTraceF fuel kv.2 else [])).flatten
     | _ => []) ++
    (match v.getField "action" with
     | some (.vstr n) => [n]
     | _ => [])

theorem resolveParams_trace_ok (run : Value → List (String × Value) × Except ExecErr Value)
    (fuel : Nat)
    (hrun : ∀ p out, (run p).2 = .ok out → (run p).1.map Prod.fst = expectedTraceF fuel p) :
    ∀ (ps : List (String × Value)) (outs : List (String × Value)),
      (resolveParams run ps).2 = .ok outs →
      (resolveParams run ps).1.map Prod.fst =
        (ps.map (fun kv => if isInvocationLike kv.2 then expectedTraceF fuel kv.2 else [])).flatten := by
  intro ps
  induction ps with
  | nil => intro outs _; rfl
  | cons kp rest ih =>
    intro outs h
    obtain ⟨k, p⟩ := kp
    simp only [resolveParams] at h ⊢
    by_cases hinv : isInvocationLike p
    · rw [if_pos hinv] at h ⊢
      cases hrp : run p with
      | mk log res =>
        rw [hrp] at h
        cases res with
        | error e => simp at h
        | ok out =>
          cases hrr : resolveParams run rest with
          | mk log2 res2 =>
            rw [hrr] at h
            cases res2 with
            | error e => simp at h
            | ok outs2 =>
              have h1 : log.map Prod.fst = expectedTraceF fuel p := by
                have hr := hrun p out
                rw [hrp] at hr
                exact hr rfl
              have h2 : log2.map Prod.fst =
                  (rest.map (fun kv =>
                    if isInvocationLike kv.2 then expectedTraceF fuel kv.2 else [])).flatten := by
                have hr := ih outs2
                rw [hrr] at hr
                exact hr rfl
              show (log ++ log2).map Prod.fst = _
              simp only [List.map_cons, List.flatten_cons, if_pos hinv, List.map_append]
              rw [h1, h2]
    · rw [if_neg hinv] at h ⊢
      cases hrr : resolveParams run rest with
      | mk log2 res2 =>
        rw [hrr] at h
        cases res2 with
        | error e => simp at h
        | ok outs2 =>
          have h2 : log2.map Prod.fst =
              (rest.map (fun kv =>
                if isInvocationLike kv.2 then expectedTraceF fuel kv.2 else [])).flatten := by
            have hr := ih outs2
            rw [hrr] at hr
            exact hr rfl
          show log2.map Prod.fst = _
          simp only [List.map_cons, List.flatten_cons, if_neg hinv, List.nil_append]
          exact h2

/-- Claim C8. Parameter resolution is depth-first and sequential in declared
parameter order: whenever a run of the resolver succeeds, the sequence of
executor invocations it performed (the trace) is exactly the postorder,
declared-order listing of the invocation tree — every nested executor
completed before the next parameter was examined, and all parameters were
resolved before the node's own executor ran. Since the listing is a pure
function of the tree, the execution order is deterministic for a fixed tree. -/
theorem claim_C8_execution_order :
    ∀ (fuel : Nat) (reg : Registry) (v : Value) (out : Value),
      (executeActionF reg fuel v).2 = .ok out →
      (executeActionF reg fuel v).1.map Prod.fst = expectedTraceF fuel v := by
  intro fuel
  induction fuel with
  | zero => intro reg v out h; simp [executeActionF] at h
  | succ fuel ih =>
    intro reg v out h
    simp only [executeActionF] at h ⊢
    cases hga : v.getField "action" with
    | none => rw [hga] at h; simp at h
    | some w =>
      rw [hga] at h
      cases w with
      | vstr actionName =>
        cases hl : lookupKey reg actionName with
        | none => simp only [hl] at h; simp at h
        | some action =>
          simp only [hl] at h
          cases hrp : resolveParams (executeActionF reg fuel)
              (match v.getField "params" with
               | some (.vobj m) => m
               | _ => []) with
          | mk log res =>
            rw [hrp] at h
            cases res with
            | error e => simp at h
            | ok input =>
              simp only at h
              cases hzp : zodParse [] (inputSchema action) (.vobj input) with
              | error e => simp [hzp] at h
              | ok validated =>
                simp only [hzp] at h
                have hlog : log.map Prod.fst =
                    (match v.getField "params" with
                     | some (.vobj ps) =>
                       (ps.map (fun kv =>
                         if isInvocationLike kv.2 then expectedTraceF fuel kv.2 else [])).flatten
                     | _ => []) := by
                  have hr := resolveParams_trace_ok (executeActionF reg fuel) fuel
                    (fun p o hp => ih reg p o hp)
                    (match v.getField "params" with
                     | some (.vobj m) => m
                     | _ => []) input
                  rw [hrp] at hr
                  have hr2 := hr rfl
                  cases hgp : v.getField "params" with
                  | none => rw [hgp] at hr2; exact hr2
                  | some w2 =>
                    rw [hgp] at hr2
                    cases w2 with
                    | vobj ps => exact hr2
                    | vstr s => exact hr2
                    | vnum n => exact hr2
                    | vbool b => exact hr2
                    | varr l => exact hr2
                simp only [hl, hzp]
                cases hex : action.exec validated with
                | error msg =>
                  simp only [hex, expectedTraceF, hga, List.map_append, List.map_cons,
                    List.map_nil]
                  rw [hlog]
                | ok o =>
                  simp only [hex, expectedTraceF, hga, List.map_append, List.map_cons,
                    List.map_nil]
                  rw [hlog]
      | vnum x => simp at h
      | vbool b => simp at h
      | vobj fs => simp at h
      | varr l => simp at h

/-- Witness for claim C8: the valid chain's successful run has trace
numberToString then stringToNumber, the postorder listing of the tree. -/
theorem claim_C8_witness :
    (executeActionF testRegistry bigFuel validChain).1.map Prod.fst =
      expectedTraceF bigFuel validChain :=
  claim_C8_execution_order bigFuel testRegistry validChain (.vnum 3) rfl

/-! Claim C9: the structural literal-versus-invocation discriminant -/

def takesObjDef : ActionDef :=
  { input := [("data", .zobject false [("action", .zstring)])]
    output := .zstring
    exec := fun _ => .ok (.vstr "done") }

def c9Registry : Registry := [("takesObj", takesObjDef)]

/-- An invocation of takesObj whose data parameter is intended as the literal
object value with the single field action holding the string "hello". -/
def hijackChain : Value :=
  .vobj [("action", .vstr "takesObj"),
         ("params", .vobj [("data", .vobj [("action", .vstr "hello")])])]

/-- Claim C9. The literal-versus-invocation decision is exactly the structural
presence of the discriminant field: a parameter value is treated as a nested
invocation if and only if it is an object carrying a field named "action"
(whatever its value); objects without that field and non-objects always pass
through as literals (nothing executed for them); an invocation-shaped value
is handed to the resolver, whose trace and failure propagate. In particular,
a literal object that legitimately contains an "action" field is hijacked:
resolving takesObj with data = the literal object with action = "hello" makes
the resolver recurse on it and fail with UnknownAction "hello". -/
theorem claim_C9_discriminant :
    (∀ v : Value, isInvocationLike v = true ↔
      ∃ fields, v = .vobj fields ∧ hasKey fields "action" = true) ∧
    (∀ (run : Value → List (String × Value) × Except ExecErr Value)
       (k : String) (p : Value) (rest : List (String × Value)),
      isInvocationLike p = false →
      (resolveParams run ((k, p) :: rest)).1 = (resolveParams run rest).1 ∧
      (∀ outs, (resolveParams run rest).2 = .ok outs →
        (resolveParams run ((k, p) :: rest)).2 = .ok ((k, p) :: outs))) ∧
    (∀ (run : Value → List (String × Value) × Except ExecErr Value)
       (k : String) (p : Value) (rest : List (String × Value)),
      isInvocationLike p = true →
      (∃ suffix, (resolveParams run ((k, p) :: rest)).1 = (run p).1 ++ suffix) ∧
      (∀ e, (run p).2 = .error e →
        (resolveParams run ((k, p) :: rest)).2 = .error e)) ∧
    executeAction c9Registry hijackChain = .error (.unknownAction "hello") := by
  refine ⟨?_, ?_, ?_, rfl⟩
  · intro v
    cases v with
    | vobj fields =>
      constructor
      · intro h; exact ⟨fields, rfl, h⟩
      · intro ⟨f2, hf2, hk⟩
        cases hf2
        exact hk
    | vstr s => simp [isInvocationLike]
    | vnum n => simp [isInvocationLike]
    | vbool b => simp [isInvocationLike]
    | varr l => simp [isInvocationLike]
  · intro run k p rest hinv
    have hcond : ¬ (isInvocationLike p = true) := by rw [hinv]; exact Bool.false_ne_true
    simp only [resolveParams, if_neg hcond]
    cases hrr : resolveParams run rest with
    | mk log2 res2 =>
      cases res2 with
      | error e => exact ⟨rfl, fun outs houts => by simp at houts⟩
      | ok outs2 =>
        refine ⟨rfl, fun outs houts => ?_⟩
        simp only at houts
        cases houts
        rfl
  · intro run k p rest hinv
    simp only [resolveParams, if_pos hinv]
    cases hrp : run p with
    | mk log res =>
      cases res with
      | error e =>
        refine ⟨⟨[], by simp⟩, fun e2 he2 => ?_⟩
        cases he2
        rfl
      | ok out =>
        cases hrr : resolveParams run rest with
        | mk log2 res2 =>
          refine ⟨⟨log2, ?_⟩, fun e2 he2 => ?_⟩
          · cases res2 with
            | error e => rfl
            | ok outs2 => rfl
          · cases he2

/-- Witness for claim C9: the hijack run, the pass-through of an
action-field-free literal object, and the discriminant characterization, all
at concrete inputs. -/
theorem claim_C9_witness :
    isInvocationLike (.vobj [("action", .vstr "hello")]) = true ∧
    (resolveParams (executeActionF c9Registry bigFuel)
      [("data", .vobj [("foo", .vstr "hello")])]).2 =
        .ok [("data", .vobj [("foo", .vstr "hello")])] ∧
    executeAction c9Registry hijackChain = .error (.unknownAction "hello") := by
  have h := claim_C9_discriminant
  refine ⟨?_, ?_, h.2.2.2⟩
  · exact (h.1 (.vobj [("action", .vstr "hello")])).mpr
      ⟨[("action", .vstr "hello")], rfl, rfl⟩
  · have h2 := (h.2.1 (executeActionF c9Registry bigFuel) "data"
      (.vobj [("foo", .vstr "hello")]) [] rfl).2 [] rfl
    exact h2
